import Mathlib

/-!
# mangadesk: chapter download and archival (`app/ui/downloading.go`)

A shallow embedding of `downloadChapters`, `saveChapter`, `saveAsZipFolder` and
`getDownloadFolder`, with the library routines they call (`strings`, `path/filepath`,
`fmt`, `os`, `archive/zip`) modelled next to them.

Conventions.
* A Go `string` is the list of its characters.  Every routine used here only
  inspects ASCII characters, so working on characters or on UTF-8 bytes agrees.
* `path/filepath` is modelled for a Unix build: the separator is `/` and there is
  no volume name.
* The operating system, the network and the terminal are an explicit `World`
  value threaded through the code; which operation fails, and with what error,
  is decided by an `Env` of oracles that may inspect the whole history.
-/

set_option autoImplicit false

namespace Mangadesk

/-- A Go string, as the list of its characters. -/
abbrev GoString := List Char

/-- File contents: a list of octets. -/
abbrev Bytes := List Nat

/-! ## `strings` -/

/-- `strings.Index(s, substr)`: index of the first occurrence, `none` for Go's `-1`. -/
def stringsIndex : GoString → GoString → Option Nat
  | [], substr => if substr = [] then some 0 else none
  | c :: t, substr =>
    if substr.isPrefixOf (c :: t) then some 0 else (stringsIndex t substr).map (· + 1)

/-- The scan of `strings.Replace` for a non-empty `old`: non-overlapping occurrences,
left to right.  The first argument bounds the number of steps. -/
def replaceLoop (old new : GoString) : Nat → GoString → GoString
  | 0, s => s
  | _ + 1, [] => []
  | fuel + 1, c :: t =>
    if old.isPrefixOf (c :: t) then
      new ++ replaceLoop old new fuel ((c :: t).drop old.length)
    else c :: replaceLoop old new fuel t

/-- With an empty `old`, `strings.Replace` inserts `new` before every character and
at the end. -/
def replaceEmpty (new : GoString) : GoString → GoString
  | [] => new
  | c :: t => new ++ c :: replaceEmpty new t

/-- `strings.ReplaceAll(s, old, new)`. -/
def stringsReplaceAll (s old new : GoString) : GoString :=
  if old = [] then replaceEmpty new s else replaceLoop old new s.length s

/-- `unicode.ToUpper`: ASCII is handled by arithmetic, everything else by the Unicode
case table, which is a parameter. -/
def unicodeToUpper (table : Char → Char) (r : Char) : Char :=
  if r.toNat ≤ 127 then
    if 97 ≤ r.toNat ∧ r.toNat ≤ 122 then Char.ofNat (r.toNat - 32) else r
  else table r

/-- `strings.ToUpper(s)`. -/
def stringsToUpper (table : Char → Char) (s : GoString) : GoString :=
  s.map (unicodeToUpper table)

/-- `strings.SplitN(s, sep, n)` for a non-empty separator and `n ≥ 0`. -/
def stringsSplitN (sep : GoString) : Nat → GoString → List GoString
  | 0, _ => []
  | 1, s => [s]
  | n + 2, s =>
    match stringsIndex s sep with
    | none => [s]
    | some m => s.take m :: stringsSplitN sep (n + 1) (s.drop (m + sep.length))

/-- `strings.Join(elems, sep)`. -/
def stringsJoin (elems : List GoString) (sep : GoString) : GoString :=
  sep.intercalate elems

/-! ## `path/filepath` (Unix) -/

/-- `filepath.Separator`. -/
def Separator : Char := '/'

/-- The inner loop of the `..` case of `filepath.Clean`: starting from write index `w`,
step back while `w > dotdot` and `out[w]` is not a separator. -/
def backtrackLoop (out : GoString) (dotdot : Nat) : Nat → Nat
  | 0 => 0
  | w + 1 =>
    if w + 1 > dotdot ∧ out.getD (w + 1) ' ' ≠ Separator then backtrackLoop out dotdot w
    else w + 1

/-- The main loop of `filepath.Clean`.  `path` is the unread input, `out` the buffer
written so far, `dotdot` the index where `..` must stop.  The first argument bounds
the number of iterations; each iteration reads at least one character. -/
def cleanLoop (rooted : Bool) : Nat → GoString → GoString → Nat → GoString
  | 0, _, out, _ => out
  | _ + 1, [], out, _ => out
  | fuel + 1, c :: rest, out, dotdot =>
    if c = Separator then
      -- empty path element
      cleanLoop rooted fuel rest out dotdot
    else if c = '.' ∧ (rest = [] ∨ rest.head? = some Separator) then
      -- . element
      cleanLoop rooted fuel rest out dotdot
    else if c = '.' ∧ rest.head? = some '.' ∧
        (rest.tail = [] ∨ rest.tail.head? = some Separator) then
      -- .. element: remove to last separator
      if out.length > dotdot then
        cleanLoop rooted fuel rest.tail
          (out.take (backtrackLoop out dotdot (out.length - 1))) dotdot
      else if !rooted then
        let out1 := if out.length > 0 then out ++ [Separator] else out
        cleanLoop rooted fuel rest.tail (out1 ++ ['.', '.']) (out1.length + 2)
      else
        cleanLoop rooted fuel rest.tail out dotdot
    else
      -- real path element: add slash if needed, then copy the element
      let out1 :=
        if (rooted ∧ out.length ≠ 1) ∨ (!rooted ∧ out.length ≠ 0) then out ++ [Separator]
        else out
      cleanLoop rooted fuel ((c :: rest).dropWhile (· ≠ Separator))
        (out1 ++ (c :: rest).takeWhile (· ≠ Separator)) dotdot

/-- `filepath.Clean(path)`. -/
def filepathClean (path : GoString) : GoString :=
  match path with
  | [] => ['.']
  | c :: rest =>
    let out :=
      if c = Separator then cleanLoop true path.length rest [Separator] 1
      else cleanLoop false path.length (c :: rest) [] 0
    if out.length = 0 then ['.'] else out

/-- `filepath.Join(elem...)`: leading empty elements are skipped, the rest is joined
with the separator and cleaned. -/
def filepathJoin : List GoString → GoString
  | [] => []
  | e :: rest =>
    if e ≠ [] then filepathClean (stringsJoin (e :: rest) [Separator]) else filepathJoin rest

/-- The scan of `filepath.Ext`, from the end of the path: `rev` is the unread part
reversed, `acc` what has been passed over. -/
def extLoop : GoString → GoString → GoString
  | [], _ => []
  | c :: rev, acc =>
    if c = Separator then [] else if c = '.' then '.' :: acc else extLoop rev (c :: acc)

/-- `filepath.Ext(path)`: the suffix beginning at the final dot of the final element. -/
def filepathExt (path : GoString) : GoString :=
  extLoop path.reverse []

/-! ## `fmt` -/

/-- The verb `%04d` on a non-negative integer: decimal digits, padded with zeros on the
left to width 4. -/
def sprintf04d (n : Nat) : GoString :=
  let digits := Nat.toDigits 10 n
  List.replicate (4 - digits.length) '0' ++ digits

/-! ## Data model -/

/-- The fields of `mangodex.Chapter` read by this file.  `ChapterNum` and `Title`
stand for the results of `GetChapterNum()` and `GetTitle()`. -/
structure Chapter where
  ID : GoString
  ChapterNum : GoString
  Title : GoString
  TranslatedLanguage : GoString
  Data : List GoString
  DataSaver : List GoString

/-- The fields of `core.App.Config` read by this file. -/
structure Config where
  DownloadDir : GoString
  DownloadQuality : GoString
  ForcePort443 : Bool
  AsZip : Bool
  ZipType : GoString

/-- The state of `MangaPage` used here.  `MangaTitle` stands for
`p.Manga.GetTitle("en")`; `Table i` is the chapter referenced by cell `(i, 0)`;
`Selected` lists the keys of the selection map. -/
structure MangaPage where
  MangaTitle : GoString
  Table : Int → Chapter
  Selected : List Int

/-! ## `getDownloadFolder` -/

/-- The slice `restricted` of `getDownloadFolder`. -/
def restricted : List GoString :=
  [['<'], ['>'], [':'], ['/'], ['|'], ['?'], ['*'], ['"'], ['\\'], ['.']]

/-- The loop over `restricted`: each pass removes one string from both names. -/
def removeRestricted (mangaName chapterName : GoString) : GoString × GoString :=
  restricted.foldl
    (fun names c => (stringsReplaceAll names.1 c [], stringsReplaceAll names.2 c []))
    (mangaName, chapterName)

/-- The `chapterName` built by `fmt.Sprintf("Chapter%s [%s-%s] %s_%s", ...)`. -/
def chapterNameOf (upper : Char → Char) (cfg : Config) (chapter : Chapter) : GoString :=
  "Chapter".toList ++ chapter.ChapterNum ++ " [".toList ++
    stringsToUpper upper chapter.TranslatedLanguage ++ "-".toList ++ cfg.DownloadQuality ++
    "] ".toList ++ chapter.Title ++ "_".toList ++
    (stringsSplitN ['-'] 2 chapter.ID).headD []

/-- `getDownloadFolder`: the download folder for a chapter.  `upper` is the Unicode
case table used by `strings.ToUpper`. -/
def getDownloadFolder (upper : Char → Char) (cfg : Config) (p : MangaPage)
    (chapter : Chapter) : GoString :=
  let mangaName := p.MangaTitle
  let chapterName := chapterNameOf upper cfg chapter
  let names := removeRestricted mangaName chapterName
  let folder := filepathJoin [cfg.DownloadDir, names.1, names.2]
  if cfg.AsZip then folder ++ '.' :: cfg.ZipType else folder

/-! ## The world: file system, terminal and history -/

/-- A Go `error`, identified by its text (`err.Error()`). -/
structure GoError where
  text : GoString
deriving DecidableEq

/-- A file-system node below a directory.  The entries of a directory are listed in
the order `os.ReadDir` returns them, that is sorted by name. -/
inductive Node where
  | file (data : Bytes)
  | dir (entries : List (GoString × Node))

/-- The fields of `zip.FileHeader` set by `saveAsZipFolder`. -/
structure FileHeader where
  Name : GoString
  Modified : Nat
  Method : Nat
deriving DecidableEq

/-- `zip.Deflate`. -/
def Deflate : Nat := 8

/-- One entry of an archive: its header and the bytes copied into it. -/
structure ZipEntry where
  header : FileHeader
  data : Bytes
deriving DecidableEq

/-- An archive file being written: the entries so far, and whether the zip writer was
closed successfully (central directory written). -/
structure Archive where
  entries : List ZipEntry
  finalised : Bool
deriving DecidableEq

/-- An update handed to `QueueUpdateDraw`. -/
inductive Update where
  /-- `p.Table.SetCell(row, col, tview.NewTableCell(text))`. -/
  | setCell (row col : Int) (text : GoString)
  /-- `ShowModal(DownloadFinishedModalID, okModal(DownloadFinishedModalID, text))`. -/
  | showModal (text : GoString)
deriving DecidableEq

/-- What the code did to the outside, in order.  `saveChapterCalled` and
`saveChapterReturned` are markers put around each call made by `downloadChapters`. -/
inductive Event where
  | newMDHomeClient (chapterID quality : GoString) (forcePort443 : Bool)
  | mkdirAll (path : GoString)
  | fetched (page : GoString) (image : Bytes)
  | fetchFailed (page : GoString) (err : GoError)
  | writeFile (path : GoString) (data : Bytes)
  | create (path : GoString)
  | lstat (path : GoString)
  | readDir (path : GoString)
  | openFile (path : GoString)
  | closeFile (path : GoString)
  | createHeader (header : FileHeader)
  | copy (name : GoString) (data : Bytes)
  | zipClose (path : GoString)
  | removeAll (path : GoString)
  | markChapterUnselected (row : Int)
  | logPrintln (msg : GoString)
  | queueUpdateDraw (u : Update)
  | saveChapterCalled (row : Int)
  | saveChapterReturned (row : Int) (err : Option GoError)
deriving DecidableEq

/-- The outside world.  `dirs` maps the path of a directory to its entries, `archives`
the path of an archive file to its contents; a path is a key as the code spells it.
The entry `name` of the directory `dir` is the file `filepath.Join(dir, name)`.  Archive
files live beside the directories: none is an entry of a directory of `dirs`.  An operation
that fails leaves the file system as it was. -/
structure World where
  dirs : GoString → Option (List (GoString × Node))
  archives : GoString → Option Archive
  log : List Event

/-- Record an event. -/
def World.emit (w : World) (e : Event) : World :=
  { w with log := w.log ++ [e] }

/-- The oracles: for each operation on the outside, whether it fails in the given
world (`none` is Go's `nil` error), and what the network and the clock return. -/
structure Env where
  upper : Char → Char
  now : World → Nat
  newMDHomeClient : World → Chapter → GoString → Bool → Option GoError
  getChapterPage : World → GoString → Except GoError Bytes
  mkdirAll : World → GoString → Option GoError
  writeFile : World → GoString → Bytes → Option GoError
  create : World → GoString → Option GoError
  lstat : World → GoString → Option GoError
  readDir : World → GoString → Option GoError
  openFile : World → GoString → Option GoError
  createHeader : World → FileHeader → Option GoError
  copy : World → GoString → Option GoError
  zipClose : World → GoString → Option GoError
  closeFile : World → GoString → Option GoError
  removeAll : World → GoString → Option GoError

/-- The error of an operation on a path that does not exist (`fs.ErrNotExist`). -/
def errNotExist : GoError := ⟨"file does not exist".toList⟩

/-- The error text of a nil-pointer dereference. -/
def errNilDeref : GoError := ⟨"invalid memory address or nil pointer dereference".toList⟩

/-- Lexicographic order on names, as `sort` uses for `os.ReadDir`. -/
def nameLt : GoString → GoString → Bool
  | [], [] => false
  | [], _ :: _ => true
  | _ :: _, [] => false
  | a :: s, b :: t => a.toNat < b.toNat || (a == b && nameLt s t)

/-- Create or overwrite the file `name` in a sorted directory listing. -/
def putFile (name : GoString) (data : Bytes) :
    List (GoString × Node) → List (GoString × Node)
  | [] => [(name, .file data)]
  | (n, x) :: rest =>
    if n = name then (name, .file data) :: rest
    else if nameLt name n then (name, .file data) :: (n, x) :: rest
    else (n, x) :: putFile name data rest

/-- `AtHome.NewMDHomeClient(chapter, quality, forcePort443)`. -/
def newMDHomeClient (env : Env) (w : World) (chapter : Chapter) (quality : GoString)
    (forcePort443 : Bool) : Option GoError × World :=
  (env.newMDHomeClient w chapter quality forcePort443,
    w.emit (.newMDHomeClient chapter.ID quality forcePort443))

/-- `downloader.GetChapterPage(page)`. -/
def getChapterPage (env : Env) (w : World) (page : GoString) : Except GoError Bytes × World :=
  match env.getChapterPage w page with
  | .ok image => (.ok image, w.emit (.fetched page image))
  | .error e => (.error e, w.emit (.fetchFailed page e))

/-- `os.MkdirAll(path, os.ModePerm)`: an existing directory is kept as it is. -/
def osMkdirAll (env : Env) (w : World) (path : GoString) : Option GoError × World :=
  let w1 := w.emit (.mkdirAll path)
  match env.mkdirAll w path with
  | some e => (some e, w1)
  | none =>
    match w.dirs path with
    | some _ => (none, w1)
    | none => (none, { w1 with dirs := Function.update w1.dirs path (some []) })

/-- `ioutil.WriteFile(filepath.Join(dir, name), data, os.ModePerm)`: creates or
truncates the entry `name` of `dir`.  Fails if `dir` does not exist. -/
def osWriteFile (env : Env) (w : World) (dir name : GoString) (data : Bytes) :
    Option GoError × World :=
  let filePath := filepathJoin [dir, name]
  let w1 := w.emit (.writeFile filePath data)
  match env.writeFile w filePath data with
  | some e => (some e, w1)
  | none =>
    match w.dirs dir with
    | none => (some errNotExist, w1)
    | some entries =>
      (none, { w1 with dirs := Function.update w1.dirs dir (some (putFile name data entries)) })

/-- `os.Create(path)` for an archive file: creates it or truncates it. -/
def osCreate (env : Env) (w : World) (path : GoString) : Option GoError × World :=
  let w1 := w.emit (.create path)
  match env.create w path with
  | some e => (some e, w1)
  | none => (none, { w1 with archives := Function.update w1.archives path (some ⟨[], false⟩) })

/-- `os.RemoveAll(path)`: removes the path and everything below it. -/
def osRemoveAll (env : Env) (w : World) (path : GoString) : Option GoError × World :=
  let w1 := w.emit (.removeAll path)
  match env.removeAll w path with
  | some e => (some e, w1)
  | none =>
    (none, { w1 with dirs := Function.update w1.dirs path none,
                     archives := Function.update w1.archives path none })

/-- Append an entry to the archive at `zipPath`. -/
def Archive.add (a : Archive) (e : ZipEntry) : Archive :=
  { a with entries := a.entries ++ [e] }

/-- Replace the data of the last entry of an archive. -/
def Archive.fill (a : Archive) (data : Bytes) : Archive :=
  match a.entries.getLast? with
  | none => a
  | some e => { a with entries := a.entries.dropLast ++ [{ e with data := data }] }

/-- `w.CreateHeader(&fh)` on the zip writer of the archive at `zipPath`: starts a new,
empty entry. -/
def zipCreateHeader (env : Env) (w : World) (zipPath : GoString) (fh : FileHeader) :
    Option GoError × World :=
  let w1 := w.emit (.createHeader fh)
  match env.createHeader w fh with
  | some e => (some e, w1)
  | none =>
    (none, { w1 with archives :=
      Function.update w1.archives zipPath ((w1.archives zipPath).map (·.add ⟨fh, []⟩)) })

/-- `io.Copy(fileZip, fileOriginal)`: the bytes of the opened file become the data of
the entry just started. -/
def ioCopy (env : Env) (w : World) (zipPath name : GoString) (data : Bytes) :
    Option GoError × World :=
  let w1 := w.emit (.copy name data)
  match env.copy w name with
  | some e => (some e, w1)
  | none =>
    (none, { w1 with archives :=
      Function.update w1.archives zipPath ((w1.archives zipPath).map (·.fill data)) })

/-- `w.Close()` on the zip writer: on success the archive is finalised. -/
def zipClose (env : Env) (w : World) (zipPath : GoString) : Option GoError × World :=
  let w1 := w.emit (.zipClose zipPath)
  match env.zipClose w zipPath with
  | some e => (some e, w1)
  | none =>
    let done := (w1.archives zipPath).map (fun a => { a with finalised := true })
    (none, { w1 with archives := Function.update w1.archives zipPath done })

/-- `f.Close()` on an open file. -/
def closeFile (env : Env) (w : World) (path : GoString) : Option GoError × World :=
  (env.closeFile w path, w.emit (.closeFile path))

/-! ## `filepath.WalkDir` -/

/-- `filepath.Base(path)`. -/
def filepathBase (path : GoString) : GoString :=
  if path = [] then ['.']
  else
    let stripped := (path.reverse.dropWhile (· = Separator)).reverse
    let last := (stripped.reverse.takeWhile (· ≠ Separator)).reverse
    if last = [] then [Separator] else last

/-- An `fs.DirEntry` handed to the walk function.  `node` is the file-system node the
entry stands for: what `os.Open` on the walked path opens. -/
structure DirEntry where
  Name : GoString
  node : Node

/-- `d.IsDir()`. -/
def DirEntry.IsDir (d : DirEntry) : Bool :=
  match d.node with
  | .dir _ => true
  | .file _ => false

/-- The bytes read from the file an entry stands for. -/
def DirEntry.contents (d : DirEntry) : Bytes :=
  match d.node with
  | .dir _ => []
  | .file data => data

/-- An `fs.WalkDirFunc`: path, entry (`none` is `nil`), incoming error. -/
abbrev WalkDirFunc := GoString → Option DirEntry → Option GoError → World → Option GoError × World

/-- The recursive `walkDir` of `path/filepath`: call the function on the node, then, for a
directory, read it and walk its entries in order; the first error ends the walk.  (The
walk function of this file never returns `fs.SkipDir`.) -/
def walkDir (env : Env) (fn : WalkDirFunc) (path name : GoString) :
    Node → World → Option GoError × World
  | .file data, w => fn path (some ⟨name, .file data⟩) none w
  | .dir entries, w =>
    match fn path (some ⟨name, .dir entries⟩) none w with
    | (some err, w1) => (some err, w1)
    | (none, w1) =>
      match env.readDir w1 path with
      | some err =>
        -- second call, to report the ReadDir error
        fn path (some ⟨name, .dir entries⟩) (some err) (w1.emit (.readDir path))
      | none => walkEntries path entries (w1.emit (.readDir path))
where
  /-- The loop of `walkDir` over the entries of the directory `path`. -/
  walkEntries (path : GoString) : List (GoString × Node) → World → Option GoError × World
    | [], w => (none, w)
    | (n, x) :: rest, w =>
      match walkDir env fn (filepathJoin [path, n]) n x w with
      | (some err, w1) => (some err, w1)
      | (none, w1) => walkEntries path rest w1

/-- `filepath.WalkDir(root, fn)`. -/
def filepathWalkDir (env : Env) (root : GoString) (fn : WalkDirFunc) (w : World) :
    Option GoError × World :=
  let w1 := w.emit (.lstat root)
  match env.lstat w root with
  | some err => fn root none (some err) w1
  | none =>
    match w.dirs root with
    | none => fn root none (some errNotExist) w1
    | some entries => walkDir env fn root (filepathBase root) (.dir entries) w1

/-! ## `saveAsZipFolder` -/

/-- `os.Open(path)` on a walked file. -/
def osOpen (env : Env) (w : World) (path : GoString) : Option GoError × World :=
  (env.openFile w path, w.emit (.openFile path))

/-- The function literal passed to `filepath.WalkDir` by `saveAsZipFolder`; `zipPath`
identifies the zip writer `w` it captures. -/
def zipWalkFn (env : Env) (zipPath : GoString) : WalkDirFunc := fun path d err w =>
  match err, d with
  -- Stop walking immediately if encounter error
  | some e, _ => (some e, w)
  | none, none => (some errNilDeref, w)
  | none, some d =>
    -- Skip if a DirEntry is a folder.
    if d.IsDir then (none, w)
    else
      -- Open the original image file.
      match osOpen env w path with
      | (some e, w1) => (some e, w1)
      | (none, w1) =>
        let fh : FileHeader := { Name := d.Name, Modified := env.now w1, Method := Deflate }
        match zipCreateHeader env w1 zipPath fh with
        | (some e, w2) => (some e, (closeFile env w2 path).2)
        | (none, w2) =>
          -- Copy the original file into its designated file in the zip archive.
          match ioCopy env w2 zipPath d.Name d.contents with
          | (some e, w3) => (some e, (closeFile env w3 path).2)
          | (none, w3) => (none, (closeFile env w3 path).2)

/-- `saveAsZipFolder`: create the zip archive of a chapter folder.  The two deferred
closes run after the walk, the zip writer first; their errors are dropped. -/
def saveAsZipFolder (env : Env) (cfg : Config) (chapterFolder : GoString) (w : World) :
    Option GoError × World :=
  let zipPath := chapterFolder ++ '.' :: cfg.ZipType
  match osCreate env w zipPath with
  | (some err, w1) => (some err, w1)
  | (none, w1) =>
    let walked := filepathWalkDir env chapterFolder (zipWalkFn env zipPath) w1
    let w3 := (zipClose env walked.2 zipPath).2
    let w4 := (closeFile env w3 zipPath).2
    (walked.1, w4)

/-! ## `saveChapter` -/

/-- The loop `for num, page := range pages` of `saveChapter`, from index `num` on. -/
def savePages (env : Env) (downloadFolder : GoString) :
    Nat → List GoString → World → Option GoError × World
  | _, [], w => (none, w)
  | num, page :: rest, w =>
    -- Get image data.
    match getChapterPage env w page with
    | (.error err, w1) => (some err, w1)
    | (.ok image, w1) =>
      let filename := sprintf04d (num + 1) ++ filepathExt page
      -- Save image
      match osWriteFile env w1 downloadFolder filename image with
      | (some err, w2) => (some err, w2)
      | (none, w2) => savePages env downloadFolder (num + 1) rest w2

/-- The page list `saveChapter` downloads. -/
def pagesOf (cfg : Config) (chapter : Chapter) : List GoString :=
  if cfg.DownloadQuality = "data-saver".toList then chapter.DataSaver else chapter.Data

/-- The first part of `saveChapter`, up to the end of the page loop: build the
downloader, create the directory, fetch and write every page. -/
def savePagesOf (env : Env) (cfg : Config) (p : MangaPage) (chapter : Chapter) (w : World) :
    Option GoError × World :=
  match newMDHomeClient env w chapter cfg.DownloadQuality cfg.ForcePort443 with
  | (some err, w1) => (some err, w1)
  | (none, w1) =>
    -- Create directory to store the current chapter.
    let downloadFolder := getDownloadFolder env.upper cfg p chapter
    match osMkdirAll env w1 downloadFolder with
    | (some err, w2) => (some err, w2)
    | (none, w2) => savePages env downloadFolder 0 (pagesOf cfg chapter) w2

/-- `saveChapter`: save a chapter. -/
def saveChapter (env : Env) (cfg : Config) (p : MangaPage) (chapter : Chapter) (w : World) :
    Option GoError × World :=
  match savePagesOf env cfg p chapter w with
  | (some err, w3) => (some err, w3)
  | (none, w3) =>
    let downloadFolder := getDownloadFolder env.upper cfg p chapter
    -- If user wants to save the downloads as a zip, then do so.
    if cfg.AsZip then
      match saveAsZipFolder env cfg downloadFolder w3 with
      | (some err, w4) => (some err, w4)
      | (none, w4) =>
        match osRemoveAll env w4 downloadFolder with
        | (some err, w5) => (some err, w5)
        | (none, w5) => (none, w5)
    else (none, w3)

/-! ## `downloadChapters` -/

/-- The message logged when a chapter fails:
`fmt.Sprintf("Error saving %s - Chapter: %s, %s - %s", ...)`. -/
def errorMessage (p : MangaPage) (chapter : Chapter) (err : GoError) : GoString :=
  "Error saving ".toList ++ p.MangaTitle ++ " - Chapter: ".toList ++ chapter.ChapterNum ++
    ", ".toList ++ chapter.Title ++ " - ".toList ++ err.text

/-- The loop `for index := range selection` that downloads the chapters; the list is
the order in which `range` yields the keys. -/
def downloadLoop (env : Env) (cfg : Config) (p : MangaPage) :
    List Int → Bool → World → Bool × World
  | [], errored, w => (errored, w)
  | index :: rest, errored, w =>
    -- Get the reference to the chapter.
    let chapter := p.Table index
    -- Save the current chapter.
    match saveChapter env cfg p chapter (w.emit (.saveChapterCalled index)) with
    | (some err, w1) =>
      -- If there was an error saving current chapter, we skip and continue trying next chapters.
      let w2 := (w1.emit (.saveChapterReturned index (some err))).emit
        (.logPrintln (errorMessage p chapter err))
      downloadLoop env cfg p rest true w2
    | (none, w1) =>
      let w2 := (w1.emit (.saveChapterReturned index none)).emit
        (.queueUpdateDraw (.setCell index 2 ['Y']))
      downloadLoop env cfg p rest errored w2

/-- The text of the final modal. -/
def finishedMessage (errored : Bool) : GoString :=
  "Last Download Queue finished.".toList ++ [Char.ofNat 10] ++
    (if errored then "We encountered some errors! Check the log for more details.".toList
     else "No errors :>".toList)

/-- `downloadChapters`: download the chapters selected by the user.  `order1` and
`order2` are the orders in which the two `range` loops yield the keys of the selection. -/
def downloadChapters (env : Env) (cfg : Config) (p : MangaPage) (order1 order2 : List Int)
    (w : World) : MangaPage × World :=
  -- Reset.
  let p1 : MangaPage := { p with Selected := [] }
  -- Clear selection highlight
  let w1 := order1.foldl (fun w index => w.emit (.markChapterUnselected index)) w
  -- Download the selected chapters.
  let looped := downloadLoop env cfg p1 order2 false w1
  (p1, looped.2.emit (.queueUpdateDraw (.showModal (finishedMessage looped.1))))

/-! ## Sanitising the folder names -/

/-- The ten restricted characters. -/
def restrictedChars : List Char := ['<', '>', ':', '/', '|', '?', '*', '"', '\\', '.']

/-- A string with every occurrence of every restricted character removed. -/
def stripRestricted (s : GoString) : GoString :=
  s.filter (fun c => decide (c ∉ restrictedChars))


/-- The lower-case letters of the alphabet. -/
def lowerLetters : GoString := "abcdefghijklmnopqrstuvwxyz".toList

/-- The upper-case letters of the alphabet, in the same order. -/
def upperLetters : GoString := "ABCDEFGHIJKLMNOPQRSTUVWXYZ".toList

/-- The upper-case form of a character, as the specification means it: a lower-case letter
becomes the upper-case letter at the same place of the alphabet, any other ASCII character is
kept, and a character outside ASCII is looked up in the Unicode case table. -/
def upperLetter (table : Char → Char) (c : Char) : Char :=
  if c ∈ lowerLetters then upperLetters.getD (lowerLetters.indexOf c) c
  else if c.toNat ≤ 127 then c
  else table c

/-- The upper-case form of a string, character by character. -/
def uppercaseSpec (table : Char → Char) (s : GoString) : GoString :=
  s.map (upperLetter table)

/-- The `chapterName` as the specification words it: `"Chapter"`, the chapter number,
the bracketed upper-cased language and quality, the chapter title, an underscore and the
chapter id up to its first hyphen. -/
def chapterNameSpec (upper : Char → Char) (cfg : Config) (chapter : Chapter) : GoString :=
  "Chapter".toList ++ chapter.ChapterNum ++ " [".toList ++
    uppercaseSpec upper chapter.TranslatedLanguage ++ "-".toList ++ cfg.DownloadQuality ++
    "] ".toList ++ chapter.Title ++ "_".toList ++
    chapter.ID.takeWhile (fun c => decide (c ≠ '-'))

/-- Three components joined by the path separator, in that order, as a string:
`a + "/" + b + "/" + c`. -/
def joinedBySeparator (a b c : GoString) : GoString :=
  a ++ '/' :: (b ++ '/' :: c)

/-! ## Concrete inputs -/

/-- A configuration that saves plain directories. -/
def plainConfig : Config :=
  { DownloadDir := "downloads".toList, DownloadQuality := "data".toList,
    ForcePort443 := false, AsZip := false, ZipType := "zip".toList }

/-- A configuration that saves zip archives. -/
def zipConfig : Config :=
  { DownloadDir := "downloads".toList, DownloadQuality := "data".toList,
    ForcePort443 := false, AsZip := true, ZipType := "zip".toList }

/-- A configuration whose download root is not a clean path. -/
def messyConfig : Config :=
  { DownloadDir := "./downloads//".toList, DownloadQuality := "data".toList,
    ForcePort443 := false, AsZip := false, ZipType := "zip".toList }

/-- A chapter with two pages. -/
def chapterOne : Chapter :=
  { ID := "ab12-cd34".toList, ChapterNum := "1".toList, Title := "Start".toList,
    TranslatedLanguage := "en".toList,
    Data := ["x1.png".toList, "x2.jpg".toList], DataSaver := ["s1.jpg".toList] }

/-- A second chapter, with one page. -/
def chapterTwo : Chapter :=
  { ID := "ef56-ab78".toList, ChapterNum := "2".toList, Title := "Next".toList,
    TranslatedLanguage := "en".toList,
    Data := ["y1.png".toList], DataSaver := [] }

/-- A manga page whose row 1 holds `chapterOne` and whose other rows hold `chapterTwo`,
with rows 1 and 2 selected. -/
def soloPage : MangaPage :=
  { MangaTitle := "Solo".toList,
    Table := fun i => if i = 1 then chapterOne else chapterTwo,
    Selected := [1, 2] }

/-- A chapter whose number, title and language all matter to the folder name. -/
def chapterRich : Chapter :=
  { ID := "ab12-cd34-ef56".toList, ChapterNum := "1.5".toList, Title := "Hi: there?".toList,
    TranslatedLanguage := "pt-br".toList,
    Data := ["x1.png".toList], DataSaver := [] }

/-- A manga page whose title holds restricted characters among others. -/
def richPage : MangaPage :=
  { MangaTitle := "So/lo: A?".toList,
    Table := fun _ => chapterRich,
    Selected := [] }

/-- A manga page whose title holds restricted characters only. -/
def questionPage : MangaPage :=
  { MangaTitle := "???".toList,
    Table := fun _ => chapterOne,
    Selected := [] }

/-! ## Vocabulary for the statements -/

/-- The name of the file holding the page with index `num` (counted from 0):
`fmt.Sprintf("%04d%s", num+1, filepath.Ext(page))`. -/
def pageFileName (num : Nat) (page : GoString) : GoString :=
  sprintf04d (num + 1) ++ filepathExt page

/-- The events of a run of the page loop in which every fetch and write succeeds: for
each page in turn, the fetch returning its image, then the write of that image. -/
def pageEvents (folder : GoString) : Nat → List GoString → List Bytes → List Event
  | num, page :: pages, image :: images =>
    .fetched page image :: .writeFile (filepathJoin [folder, pageFileName num page]) image ::
      pageEvents folder (num + 1) pages images
  | _, _, _ => []

/-- The directory listing after the page files have been written, one after the other. -/
def putPages : Nat → List GoString → List Bytes → List (GoString × Node) →
    List (GoString × Node)
  | num, page :: pages, image :: images, es =>
    putPages (num + 1) pages images (putFile (pageFileName num page) image es)
  | _, _, _, es => es

/-- The number written by a string of decimal digits. -/
def decValue (s : GoString) : Nat :=
  s.foldl (fun a c => 10 * a + (c.toNat - 48)) 0

/-- The files at or below a node, in walk order (a directory before its entries, the entries
in listing order), each with its base name and its bytes. -/
def filesUnder (name : GoString) : Node → List (GoString × Bytes)
  | .file data => [(name, data)]
  | .dir entries => listed entries
where
  /-- The files below the entries of a directory listing, in walk order. -/
  listed : List (GoString × Node) → List (GoString × Bytes)
    | [] => []
    | (n, x) :: rest => filesUnder n x ++ listed rest

/-- The events a directory walk of `saveAsZipFolder` can produce. -/
def Event.isWalkOp : Event → Bool
  | .readDir _ => true
  | .openFile _ => true
  | .closeFile _ => true
  | .createHeader _ => true
  | .copy _ _ => true
  | _ => false

/-- Whether an event is a call of `os.RemoveAll`. -/
def Event.isRemoveAll : Event → Bool
  | .removeAll _ => true
  | _ => false

/-- The events of the first part of `saveChapter`: building the downloader, creating the
directory, fetching and writing pages. -/
def Event.isPageOp : Event → Bool
  | .newMDHomeClient _ _ _ => true
  | .mkdirAll _ => true
  | .fetched _ _ => true
  | .fetchFailed _ _ => true
  | .writeFile _ _ => true
  | _ => false

/-- The events `saveAsZipFolder` can produce: creating the archive, the walk, the closes. -/
def Event.isArchiveOp : Event → Bool
  | .create _ => true
  | .lstat _ => true
  | .zipClose _ => true
  | e => e.isWalkOp

/-- The events produced inside `saveChapter`, as opposed to those of `downloadChapters`. -/
def Event.isChapterOp : Event → Bool
  | .markChapterUnselected _ => false
  | .logPrintln _ => false
  | .queueUpdateDraw _ => false
  | .saveChapterCalled _ => false
  | .saveChapterReturned _ _ => false
  | _ => true

/-- The name given to `CreateHeader`, for a `createHeader` event. -/
def Event.headerName : Event → Option GoString
  | .createHeader fh => some fh.Name
  | _ => none

/-- What a walk by `saveAsZipFolder` does to the world `w`, `r` being its result: it leaves
the directories and the other archives alone, produces walk events only, appends entries to
the archive at `zipPath`; and if it returns `nil`, the entries appended and the
`CreateHeader` calls are, in order, those of the files `expected`. -/
def WalkSpec (zipPath : GoString) (expected : List (GoString × Bytes)) (w : World)
    (r : Option GoError × World) : Prop :=
  r.2.dirs = w.dirs ∧
  (∀ q, q ≠ zipPath → r.2.archives q = w.archives q) ∧
  ∃ (evs : List Event) (ents : List ZipEntry),
    r.2.log = w.log ++ evs ∧ (∀ e ∈ evs, e.isWalkOp = true) ∧
    r.2.archives zipPath =
      (w.archives zipPath).map (fun a => ⟨a.entries ++ ents, a.finalised⟩) ∧
    (r.1 = none →
      ents.map (fun e => (e.header.Name, e.header.Method, e.data)) =
        expected.map (fun f => (f.1, Deflate, f.2)) ∧
      evs.filterMap Event.headerName = expected.map Prod.fst)

/-- The world `w1` is `w` followed by some events, all of which satisfy `P`. -/
def Extends (P : Event → Bool) (w w1 : World) : Prop :=
  ∃ evs : List Event, w1.log = w.log ++ evs ∧ ∀ e ∈ evs, P e = true

/-- An environment in which nothing fails; a fetched page is the length of its reference. -/
def okEnv : Env where
  upper := id
  now := fun w => w.log.length
  newMDHomeClient := fun _ _ _ _ => none
  getChapterPage := fun _ page => .ok [page.length]
  mkdirAll := fun _ _ => none
  writeFile := fun _ _ _ => none
  create := fun _ _ => none
  lstat := fun _ _ => none
  readDir := fun _ _ => none
  openFile := fun _ _ => none
  createHeader := fun _ _ => none
  copy := fun _ _ => none
  zipClose := fun _ _ => none
  closeFile := fun _ _ => none
  removeAll := fun _ _ => none

/-- An environment in which only closing the zip writer and the archive file fail. -/
def closeFailEnv : Env :=
  { okEnv with
    zipClose := fun _ _ => some ⟨"write error".toList⟩
    closeFile := fun _ _ => some ⟨"close error".toList⟩ }

/-- An environment in which the fetch of `x2.jpg` fails and nothing else does. -/
def fetchFailEnv : Env :=
  { okEnv with
    getChapterPage := fun _ page =>
      if page = "x2.jpg".toList then .error ⟨"connection reset".toList⟩ else .ok [page.length] }

/-- An environment in which `os.Open` fails during the walk and nothing else does. -/
def openFailEnv : Env :=
  { okEnv with openFile := fun _ _ => some ⟨"permission denied".toList⟩ }

/-- The world before anything happened: no directory, no archive, empty history. -/
def emptyWorld : World :=
  { dirs := fun _ => none, archives := fun _ => none, log := [] }

/-- A world with one source directory `src`, holding a file, a sub-directory with a file,
and another file. -/
def treeWorld : World :=
  { dirs := fun path =>
      if path = "src".toList then
        some [("a.png".toList, .file [1, 2]),
              ("sub".toList, .dir [("b.png".toList, .file [3])]),
              ("z.jpg".toList, .file [])]
      else none,
    archives := fun _ => none,
    log := [] }

/-- The row of a `saveChapterCalled` marker. -/
def Event.calledRow : Event → Option Int
  | .saveChapterCalled row => some row
  | _ => none

/-- The row and result of a `saveChapterReturned` marker. -/
def Event.returned : Event → Option (Int × Option GoError)
  | .saveChapterReturned row err => some (row, err)
  | _ => none

/-- The row, column and text of a queued `SetCell`. -/
def Event.statusUpdate : Event → Option (Int × Int × GoString)
  | .queueUpdateDraw (.setCell row col text) => some (row, col, text)
  | _ => none

/-- The text of a queued final modal. -/
def Event.modalText : Event → Option GoString
  | .queueUpdateDraw (.showModal text) => some text
  | _ => none

/-- What the download loop does, `r` being its result from the world `w` over the rows
`order` with the flag `errored`, and `results` the results of the calls of `saveChapter`:
the markers, status updates and modals among the events it adds, and the flag it returns. -/
def LoopSpec (env : Env) (cfg : Config) (p : MangaPage) (order : List Int) (errored : Bool)
    (w : World) (r : Bool × World) (results : List (Option GoError)) (evs : List Event) : Prop :=
  results.length = order.length ∧
  r.1 = (errored || results.any Option.isSome) ∧
  r.2.log = w.log ++ evs ∧
  evs.filterMap Event.calledRow = order ∧
  evs.filterMap Event.returned = order.zip results ∧
  evs.filterMap Event.statusUpdate =
    ((order.zip results).filter (fun x => x.2.isNone)).map (fun x => (x.1, 2, ['Y'])) ∧
  evs.filterMap Event.modalText = [] ∧
  ∀ x ∈ order.zip results, ∃ w1, (saveChapter env cfg p (p.Table x.1) w1).1 = x.2

/-! ## Lemmas on the string routines -/

theorem replaceLoop_single (c : Char) :
    ∀ (n : Nat) (s : GoString), s.length ≤ n →
      replaceLoop [c] [] n s = s.filter (fun x => decide (x ≠ c)) := by
  intro n
  induction n with
  | zero =>
    intro s hs
    have : s = [] := List.length_eq_zero.mp (Nat.le_zero.mp hs)
    subst this
    rfl
  | succ n ih =>
    intro s hs
    cases s with
    | nil => rfl
    | cons x t =>
      have ht : t.length ≤ n := by simpa using hs
      by_cases hx : x = c
      · subst hx
        simp [replaceLoop, List.isPrefixOf, ih t ht]
      · have hx2 : ¬ c = x := fun h => hx h.symm
        simp [replaceLoop, List.isPrefixOf, ih t ht, hx, hx2]

theorem stringsReplaceAll_single (s : GoString) (c : Char) :
    stringsReplaceAll s [c] [] = s.filter (fun x => decide (x ≠ c)) := by
  simp [stringsReplaceAll, replaceLoop_single c s.length s (Nat.le_refl _)]

theorem removeRestricted_eq (m c : GoString) :
    removeRestricted m c = (stripRestricted m, stripRestricted c) := by
  simp only [removeRestricted, restricted, List.foldl, stringsReplaceAll_single,
    List.filter_filter, stripRestricted, restrictedChars]
  refine Prod.ext ?_ ?_ <;>
  · apply List.filter_congr
    intro x _
    rw [Bool.eq_iff_iff]
    simp only [List.mem_cons, List.mem_singleton, List.not_mem_nil, or_false, not_or,
      Bool.and_eq_true, decide_eq_true_eq, ne_eq]
    tauto

theorem not_mem_stripRestricted (s : GoString) (c : Char) (hc : c ∈ restrictedChars) :
    c ∉ stripRestricted s := by
  intro h
  have := (List.mem_filter.mp h).2
  simp at this
  exact this hc

theorem stringsIndex_single (c : Char) :
    ∀ s : GoString,
      (stringsIndex s [c] = none ∧ s.takeWhile (fun x => decide (x ≠ c)) = s) ∨
      (∃ m, stringsIndex s [c] = some m ∧ s.take m = s.takeWhile (fun x => decide (x ≠ c))) := by
  intro s
  induction s with
  | nil => left; simp [stringsIndex]
  | cons x t ih =>
    by_cases hx : x = c
    · subst hx
      right
      exact ⟨0, by simp [stringsIndex, List.isPrefixOf], by simp⟩
    · have hx2 : ¬ c = x := fun h => hx h.symm
      have hp : decide (x ≠ c) = true := by simpa using hx
      rcases ih with ⟨h1, h2⟩ | ⟨m, h1, h2⟩
      · left
        refine ⟨by simp [stringsIndex, List.isPrefixOf, hx2, h1], ?_⟩
        rw [List.takeWhile_cons, if_pos hp, h2]
      · right
        refine ⟨m + 1, by simp [stringsIndex, List.isPrefixOf, hx2, h1], ?_⟩
        rw [List.takeWhile_cons, if_pos hp, List.take_succ_cons, h2]

theorem splitN_head (s : GoString) :
    (stringsSplitN ['-'] 2 s).headD [] = s.takeWhile (fun x => decide (x ≠ '-')) := by
  rcases stringsIndex_single '-' s with ⟨h1, h2⟩ | ⟨m, h1, h2⟩
  · simp only [stringsSplitN, h1, List.headD_cons, h2]
  · simp only [stringsSplitN, h1, List.headD_cons, h2]

/-! ## `getDownloadFolder` -/

/-- C1, as stated, fails: with archiving off, download root `downloads`, manga title `Solo`
and chapter 1, the returned path is `downloads/Solo/Chapter1 [EN-data] Start_ab12`, which
contains the restricted character `/`. -/
theorem getDownloadFolder_has_separator :
    getDownloadFolder id plainConfig soloPage chapterOne =
        "downloads/Solo/Chapter1 [EN-data] Start_ab12".toList ∧
      ¬ (∀ c ∈ restrictedChars, c ∉ getDownloadFolder id plainConfig soloPage chapterOne) := by
  refine ⟨by decide, fun h => h '/' (by decide) ?_⟩
  decide

/-- C1, amended: the path returned by `getDownloadFolder` is `filepath.Join` of the
download root and the two names left by the loop over `restricted`, followed by
`"." + ZipType` when `AsZip` is set; and those two names, the manga title and the chapter
name, contain none of the ten restricted characters. -/
theorem getDownloadFolder_names_clean (upper : Char → Char) (cfg : Config) (p : MangaPage)
    (chapter : Chapter) :
    getDownloadFolder upper cfg p chapter =
        filepathJoin [cfg.DownloadDir,
          (removeRestricted p.MangaTitle (chapterNameOf upper cfg chapter)).1,
          (removeRestricted p.MangaTitle (chapterNameOf upper cfg chapter)).2] ++
          (if cfg.AsZip then '.' :: cfg.ZipType else []) ∧
      ∀ c ∈ restrictedChars,
        c ∉ (removeRestricted p.MangaTitle (chapterNameOf upper cfg chapter)).1 ∧
        c ∉ (removeRestricted p.MangaTitle (chapterNameOf upper cfg chapter)).2 := by
  constructor
  · unfold getDownloadFolder
    by_cases hz : cfg.AsZip = true <;> simp [hz]
  · intro c hc
    rw [removeRestricted_eq]
    exact ⟨not_mem_stripRestricted _ c hc, not_mem_stripRestricted _ c hc⟩


/-! ## `filepath.Clean` on a path that is already clean -/

theorem cleanLoop_nil (r : Bool) (fuel : Nat) (out : GoString) (dd : Nat) :
    cleanLoop r fuel [] out dd = out := by
  cases fuel <;> rfl

theorem head_sep_append (rest q : GoString) :
    (rest ++ Separator :: q = [] ∨ (rest ++ Separator :: q).head? = some Separator) ↔
      (rest = [] ∨ rest.head? = some Separator) := by
  cases rest <;> simp

theorem head_dot_append (rest q : GoString) :
    (rest ++ Separator :: q).head? = some '.' ↔ rest.head? = some '.' := by
  cases rest with
  | nil => simp [Separator]
  | cons x t => simp

theorem tail_append_sep (rest q : GoString) (h : rest ≠ []) :
    (rest ++ Separator :: q).tail = rest.tail ++ Separator :: q := by
  cases rest with
  | nil => exact absurd rfl h
  | cons x t => rfl

theorem takeWhile_append_sep (p q : GoString) :
    (p ++ Separator :: q).takeWhile (· ≠ Separator) = p.takeWhile (· ≠ Separator) := by
  induction p with
  | nil => simp
  | cons x t ih =>
    by_cases hx : x = Separator
    · simp [hx]
    · simp only [List.cons_append, List.takeWhile_cons, ih]

theorem dropWhile_append_sep (p q : GoString) :
    (p ++ Separator :: q).dropWhile (· ≠ Separator) =
      p.dropWhile (· ≠ Separator) ++ Separator :: q := by
  induction p with
  | nil => simp
  | cons x t ih =>
    by_cases hx : x = Separator
    · simp [hx]
    · simp only [List.cons_append, List.dropWhile_cons, ih]
      simp [hx]

theorem dropWhile_length_le (p : GoString) :
    (p.dropWhile (· ≠ Separator)).length ≤ p.length := by
  induction p with
  | nil => simp
  | cons x t ih =>
    simp only [List.dropWhile_cons]
    split
    · exact Nat.le_succ_of_le ih
    · exact Nat.le_refl _

/-- Reading `p` followed by a separator and `q` first does to the buffer what reading `p`
alone does. -/
theorem cleanLoop_split (r : Bool) (q : GoString) :
    ∀ (N : Nat) (p out : GoString) (dd fuel : Nat), p.length ≤ N →
      p.length + 1 + q.length ≤ fuel →
      ∃ (out1 : GoString) (dd1 fuel1 : Nat), q.length + 1 ≤ fuel1 ∧
        cleanLoop r fuel (p ++ Separator :: q) out dd =
          cleanLoop r fuel1 (Separator :: q) out1 dd1 ∧
        ∀ fuel0, p.length ≤ fuel0 → cleanLoop r fuel0 p out dd = out1 := by
  intro N
  induction N with
  | zero =>
    intro p out dd fuel hN hfuel
    have hp : p = [] := List.length_eq_zero.mp (Nat.le_zero.mp hN)
    subst hp
    exact ⟨out, dd, fuel, by simp at hfuel; omega, rfl, fun f _ => cleanLoop_nil r f out dd⟩
  | succ N ih =>
    intro p out dd fuel hN hfuel
    cases p with
    | nil => exact ⟨out, dd, fuel, by simp at hfuel; omega, rfl, fun f _ => cleanLoop_nil r f out dd⟩
    | cons c rest =>
      have hrest : rest.length ≤ N := by simpa using hN
      obtain ⟨fuel, rfl⟩ : ∃ f, fuel = f + 1 := ⟨fuel - 1, by simp at hfuel; omega⟩
      have hfuel' : rest.length + 1 + q.length ≤ fuel := by simp at hfuel; omega
      by_cases h1 : c = Separator
      · obtain ⟨out1, dd1, fuel1, hf1, heq, hall⟩ := ih rest out dd fuel hrest hfuel'
        refine ⟨out1, dd1, fuel1, hf1, ?_, ?_⟩
        · rw [← heq]; simp [cleanLoop, h1]
        · intro fuel0 h0
          obtain ⟨f0, rfl⟩ : ∃ f, fuel0 = f + 1 := ⟨fuel0 - 1, by simp at h0; omega⟩
          rw [← hall f0 (by simp at h0; omega)]; simp [cleanLoop, h1]
      · by_cases h2 : c = '.' ∧ (rest = [] ∨ rest.head? = some Separator)
        · obtain ⟨out1, dd1, fuel1, hf1, heq, hall⟩ := ih rest out dd fuel hrest hfuel'
          have h2' : c = '.' ∧ (rest ++ Separator :: q = [] ∨
              (rest ++ Separator :: q).head? = some Separator) :=
            ⟨h2.1, (head_sep_append rest q).mpr h2.2⟩
          refine ⟨out1, dd1, fuel1, hf1, ?_, ?_⟩
          · rw [← heq, List.cons_append, cleanLoop, if_neg h1, if_pos h2']
          · intro fuel0 h0
            obtain ⟨f0, rfl⟩ : ∃ f, fuel0 = f + 1 := ⟨fuel0 - 1, by simp at h0; omega⟩
            rw [← hall f0 (by simp at h0; omega), cleanLoop, if_neg h1, if_pos h2]
        · have h2' : ¬ (c = '.' ∧ (rest ++ Separator :: q = [] ∨
              (rest ++ Separator :: q).head? = some Separator)) :=
            fun h => h2 ⟨h.1, (head_sep_append rest q).mp h.2⟩
          by_cases h3 : c = '.' ∧ rest.head? = some '.' ∧
              (rest.tail = [] ∨ rest.tail.head? = some Separator)
          · have hne : rest ≠ [] := by
              intro h; rw [h] at h3; simp at h3
            have htl : rest.tail.length ≤ N := by
              rw [List.length_tail]; omega
            have hfuelT : rest.tail.length + 1 + q.length ≤ fuel := by
              rw [List.length_tail]; omega
            have h3' : c = '.' ∧ (rest ++ Separator :: q).head? = some '.' ∧
                ((rest ++ Separator :: q).tail = [] ∨
                  (rest ++ Separator :: q).tail.head? = some Separator) := by
              refine ⟨h3.1, (head_dot_append rest q).mpr h3.2.1, ?_⟩
              rw [tail_append_sep rest q hne]
              exact (head_sep_append rest.tail q).mpr h3.2.2
            by_cases hb : out.length > dd
            · obtain ⟨out1, dd1, fuel1, hf1, heq, hall⟩ := ih rest.tail
                (out.take (backtrackLoop out dd (out.length - 1))) dd fuel htl hfuelT
              refine ⟨out1, dd1, fuel1, hf1, ?_, ?_⟩
              · rw [← heq, List.cons_append, cleanLoop, if_neg h1, if_neg h2', if_pos h3',
                  if_pos hb, tail_append_sep rest q hne]
              · intro fuel0 h0
                obtain ⟨f0, rfl⟩ : ∃ f, fuel0 = f + 1 := ⟨fuel0 - 1, by simp at h0; omega⟩
                rw [← hall f0 (by rw [List.length_tail]; simp at h0; omega), cleanLoop,
                  if_neg h1, if_neg h2, if_pos h3, if_pos hb]
            · by_cases hr : (!r) = true
              · obtain ⟨out1, dd1, fuel1, hf1, heq, hall⟩ := ih rest.tail
                  ((if out.length > 0 then out ++ [Separator] else out) ++ ['.', '.'])
                  ((if out.length > 0 then out ++ [Separator] else out).length + 2)
                  fuel htl hfuelT
                refine ⟨out1, dd1, fuel1, hf1, ?_, ?_⟩
                · rw [← heq, List.cons_append, cleanLoop, if_neg h1, if_neg h2', if_pos h3',
                    if_neg hb, if_pos hr, tail_append_sep rest q hne]
                · intro fuel0 h0
                  obtain ⟨f0, rfl⟩ : ∃ f, fuel0 = f + 1 := ⟨fuel0 - 1, by simp at h0; omega⟩
                  rw [← hall f0 (by rw [List.length_tail]; simp at h0; omega), cleanLoop,
                    if_neg h1, if_neg h2, if_pos h3, if_neg hb, if_pos hr]
              · obtain ⟨out1, dd1, fuel1, hf1, heq, hall⟩ := ih rest.tail out dd fuel htl hfuelT
                refine ⟨out1, dd1, fuel1, hf1, ?_, ?_⟩
                · rw [← heq, List.cons_append, cleanLoop, if_neg h1, if_neg h2', if_pos h3',
                    if_neg hb, if_neg hr, tail_append_sep rest q hne]
                · intro fuel0 h0
                  obtain ⟨f0, rfl⟩ : ∃ f, fuel0 = f + 1 := ⟨fuel0 - 1, by simp at h0; omega⟩
                  rw [← hall f0 (by rw [List.length_tail]; simp at h0; omega), cleanLoop,
                    if_neg h1, if_neg h2, if_pos h3, if_neg hb, if_neg hr]
          · have h3' : ¬ (c = '.' ∧ (rest ++ Separator :: q).head? = some '.' ∧
                ((rest ++ Separator :: q).tail = [] ∨
                  (rest ++ Separator :: q).tail.head? = some Separator)) := by
              rintro ⟨ha, hb, hc⟩
              have hb' := (head_dot_append rest q).mp hb
              have hne : rest ≠ [] := by
                intro h; rw [h] at hb'; simp at hb'
              rw [tail_append_sep rest q hne] at hc
              exact h3 ⟨ha, hb', (head_sep_append rest.tail q).mp hc⟩
            have hdl : ((c :: rest).dropWhile (· ≠ Separator)).length ≤ N := by
              have hc : decide (c ≠ Separator) = true := by simpa using h1
              rw [List.dropWhile_cons, if_pos hc]
              exact Nat.le_trans (dropWhile_length_le rest) hrest
            have hdl2 : ((c :: rest).dropWhile (· ≠ Separator)).length ≤ rest.length := by
              have hc : decide (c ≠ Separator) = true := by simpa using h1
              rw [List.dropWhile_cons, if_pos hc]
              exact dropWhile_length_le rest
            obtain ⟨out1, dd1, fuel1, hf1, heq, hall⟩ := ih
              ((c :: rest).dropWhile (· ≠ Separator))
              ((if (r = true ∧ out.length ≠ 1) ∨ ((!r) = true ∧ out.length ≠ 0) then
                  out ++ [Separator] else out) ++ (c :: rest).takeWhile (· ≠ Separator))
              dd fuel hdl (by omega)
            refine ⟨out1, dd1, fuel1, hf1, ?_, ?_⟩
            · rw [← heq, List.cons_append, cleanLoop, if_neg h1, if_neg h2', if_neg h3']
              simp only
              rw [← List.cons_append, takeWhile_append_sep, dropWhile_append_sep]
            · intro fuel0 h0
              obtain ⟨f0, rfl⟩ : ∃ f, fuel0 = f + 1 := ⟨fuel0 - 1, by simp at h0; omega⟩
              rw [← hall f0 (by simp at h0; omega), cleanLoop, if_neg h1, if_neg h2, if_neg h3]

theorem takeWhile_all (e : GoString) (h : ∀ c ∈ e, c ≠ Separator) :
    e.takeWhile (· ≠ Separator) = e := by
  induction e with
  | nil => rfl
  | cons x t ih =>
    have hx : decide (x ≠ Separator) = true := by simpa using h x (List.mem_cons_self _ _)
    rw [List.takeWhile_cons, if_pos hx, ih (fun c hc => h c (List.mem_cons_of_mem _ hc))]

theorem dropWhile_all (e : GoString) (h : ∀ c ∈ e, c ≠ Separator) :
    e.dropWhile (· ≠ Separator) = [] := by
  induction e with
  | nil => rfl
  | cons x t ih =>
    have hx : decide (x ≠ Separator) = true := by simpa using h x (List.mem_cons_self _ _)
    rw [List.dropWhile_cons, if_pos hx, ih (fun c hc => h c (List.mem_cons_of_mem _ hc))]

/-- One iteration of the loop of `filepath.Clean` on a real path element `e`, which is
followed by the end of the path or by a separator. -/
theorem cleanLoop_elem (r : Bool) (fuel : Nat) (e rest out : GoString) (dd : Nat)
    (hne : e ≠ []) (hsep : ∀ c ∈ e, c ≠ Separator) (hdot : e.head? ≠ some '.')
    (hrest : rest = [] ∨ ∃ q, rest = Separator :: q)
    (hout : (r = true → out.length ≠ 1) ∧ (r = false → out.length ≠ 0)) :
    cleanLoop r (fuel + 1) (e ++ rest) out dd =
      cleanLoop r fuel rest (out ++ Separator :: e) dd := by
  cases e with
  | nil => exact absurd rfl hne
  | cons c t =>
    have h1 : ¬ c = Separator := hsep c (List.mem_cons_self _ _)
    have hc : ¬ c = '.' := by simpa using hdot
    have h2 : ¬ (c = '.' ∧ (t ++ rest = [] ∨ (t ++ rest).head? = some Separator)) :=
      fun h => hc h.1
    have h3 : ¬ (c = '.' ∧ (t ++ rest).head? = some '.' ∧
        ((t ++ rest).tail = [] ∨ (t ++ rest).tail.head? = some Separator)) :=
      fun h => hc h.1
    have hcond : (r = true ∧ out.length ≠ 1) ∨ ((!r) = true ∧ out.length ≠ 0) := by
      cases r with
      | true => exact Or.inl ⟨rfl, hout.1 rfl⟩
      | false => exact Or.inr ⟨rfl, hout.2 rfl⟩
    rw [List.cons_append, cleanLoop, if_neg h1, if_neg h2, if_neg h3]
    simp only [if_pos hcond]
    rw [← List.cons_append]
    rcases hrest with h | ⟨q, h⟩
    · subst h
      rw [List.append_nil, takeWhile_all _ hsep, dropWhile_all _ hsep]
      simp
    · subst h
      rw [takeWhile_append_sep, dropWhile_append_sep, takeWhile_all _ hsep,
        dropWhile_all _ hsep]
      simp

/-- The loop of `filepath.Clean` on two real path elements, each after a separator. -/
theorem cleanLoop_two (r : Bool) (fuel : Nat) (m c out : GoString) (dd : Nat)
    (hfuel : 4 ≤ fuel)
    (hm : m ≠ []) (hmsep : ∀ x ∈ m, x ≠ Separator) (hmdot : m.head? ≠ some '.')
    (hc : c ≠ []) (hcsep : ∀ x ∈ c, x ≠ Separator) (hcdot : c.head? ≠ some '.')
    (hout : (r = true → out.length ≠ 1) ∧ (r = false → out.length ≠ 0)) :
    cleanLoop r fuel (Separator :: (m ++ Separator :: c)) out dd =
      out ++ Separator :: (m ++ Separator :: c) := by
  obtain ⟨f, rfl⟩ : ∃ f, fuel = f + 4 := ⟨fuel - 4, by omega⟩
  have s1 : cleanLoop r (f + 4) (Separator :: (m ++ Separator :: c)) out dd =
      cleanLoop r (f + 3) (m ++ Separator :: c) out dd := by
    rw [cleanLoop, if_pos rfl]
  have s3 : cleanLoop r (f + 2) (Separator :: c) (out ++ Separator :: m) dd =
      cleanLoop r (f + 1) c (out ++ Separator :: m) dd := by
    rw [cleanLoop, if_pos rfl]
  have hlen : (out ++ Separator :: m).length ≠ 1 ∧ (out ++ Separator :: m).length ≠ 0 := by
    have : 0 < m.length := List.length_pos.mpr hm
    simp only [List.length_append, List.length_cons]
    omega
  have s4 := cleanLoop_elem r f c [] (out ++ Separator :: m) dd hc hcsep hcdot (Or.inl rfl)
    ⟨fun _ => hlen.1, fun _ => hlen.2⟩
  rw [List.append_nil] at s4
  rw [s1, cleanLoop_elem r (f + 2) m (Separator :: c) out dd hm hmsep hmdot
    (Or.inr ⟨c, rfl⟩) hout, s3, s4, cleanLoop_nil]
  simp

theorem stringsJoin_three (a b c : GoString) :
    stringsJoin [a, b, c] [Separator] = a ++ Separator :: (b ++ Separator :: c) := by
  simp [stringsJoin, List.intercalate, List.intersperse]

/-- On a download root that is a clean path other than `.` and `/`, `filepath.Join` of the
root and two real path elements is the root, a separator, the first element, a separator
and the second element. -/
theorem filepathJoin_clean_root (root m c : GoString)
    (hclean : filepathClean root = root) (hdot : root ≠ ['.']) (hslash : root ≠ [Separator])
    (hm : m ≠ []) (hmsep : ∀ x ∈ m, x ≠ Separator) (hmdot : m.head? ≠ some '.')
    (hc : c ≠ []) (hcsep : ∀ x ∈ c, x ≠ Separator) (hcdot : c.head? ≠ some '.') :
    filepathJoin [root, m, c] = root ++ Separator :: (m ++ Separator :: c) := by
  cases root with
  | nil => simp [filepathClean] at hclean
  | cons x rest =>
    have hjoin : filepathJoin [x :: rest, m, c] =
        filepathClean ((x :: rest) ++ Separator :: (m ++ Separator :: c)) := by
      simp [filepathJoin, stringsJoin_three]
    rw [hjoin]
    have hQ : 4 ≤ (m ++ Separator :: c).length + 1 := by
      have h1 : 0 < m.length := List.length_pos.mpr hm
      have h2 : 0 < c.length := List.length_pos.mpr hc
      simp only [List.length_append, List.length_cons]
      omega
    by_cases hx : x = Separator
    · subst hx
      have hrest : rest ≠ [] := fun h => hslash (by rw [h])
      obtain ⟨out1, dd1, fuel1, hf1, heq, hall⟩ := cleanLoop_split true (m ++ Separator :: c)
        rest.length rest [Separator] 1
        ((Separator :: rest) ++ Separator :: (m ++ Separator :: c)).length (Nat.le_refl _)
        (by simp only [List.length_append, List.length_cons]; omega)
      have hroot : out1 = Separator :: rest := by
        have h := hall (Separator :: rest).length (by simp)
        simp only [filepathClean, if_true] at hclean
        rw [h] at hclean
        by_cases h0 : out1.length = 0
        · rw [if_pos h0] at hclean
          exact absurd hclean.symm hdot
        · rw [if_neg h0] at hclean
          exact hclean
      have hres : cleanLoop true
          ((Separator :: rest) ++ Separator :: (m ++ Separator :: c)).length
          (rest ++ Separator :: (m ++ Separator :: c)) [Separator] 1 =
          (Separator :: rest) ++ Separator :: (m ++ Separator :: c) := by
        rw [heq, hroot]
        have hlen : (Separator :: rest).length ≠ 1 := by
          have : 0 < rest.length := List.length_pos.mpr hrest
          simp only [List.length_cons]
          omega
        exact cleanLoop_two true fuel1 m c (Separator :: rest) dd1 (by omega) hm hmsep hmdot
          hc hcsep hcdot ⟨fun _ => hlen, fun h => Bool.noConfusion h⟩
      have hstart : filepathClean ((Separator :: rest) ++ Separator :: (m ++ Separator :: c)) =
          (let out := cleanLoop true
            ((Separator :: rest) ++ Separator :: (m ++ Separator :: c)).length
            (rest ++ Separator :: (m ++ Separator :: c)) [Separator] 1
           if out.length = 0 then ['.'] else out) := by
        simp [filepathClean]
      rw [hstart]
      simp only [hres]
      simp
    · obtain ⟨out1, dd1, fuel1, hf1, heq, hall⟩ := cleanLoop_split false (m ++ Separator :: c)
        (x :: rest).length (x :: rest) [] 0
        ((x :: rest) ++ Separator :: (m ++ Separator :: c)).length (Nat.le_refl _)
        (by simp only [List.length_append, List.length_cons]; omega)
      have hroot : out1 = x :: rest := by
        have h := hall (x :: rest).length (Nat.le_refl _)
        simp only [filepathClean, if_neg hx] at hclean
        rw [h] at hclean
        by_cases h0 : out1.length = 0
        · rw [if_pos h0] at hclean
          exact absurd hclean.symm hdot
        · rw [if_neg h0] at hclean
          exact hclean
      have hres : cleanLoop false
          ((x :: rest) ++ Separator :: (m ++ Separator :: c)).length
          ((x :: rest) ++ Separator :: (m ++ Separator :: c)) [] 0 =
          (x :: rest) ++ Separator :: (m ++ Separator :: c) := by
        rw [heq, hroot]
        exact cleanLoop_two false fuel1 m c (x :: rest) dd1 (by omega) hm hmsep hmdot
          hc hcsep hcdot ⟨fun h => Bool.noConfusion h, fun _ => (by simp)⟩
      have hstart : filepathClean ((x :: rest) ++ Separator :: (m ++ Separator :: c)) =
          (let out := cleanLoop false
            ((x :: rest) ++ Separator :: (m ++ Separator :: c)).length
            ((x :: rest) ++ Separator :: (m ++ Separator :: c)) [] 0
           if out.length = 0 then ['.'] else out) := by
        simp [filepathClean, hx]
      rw [hstart]
      simp only [hres]
      simp

theorem stripRestricted_elem (s : GoString) :
    (∀ x ∈ stripRestricted s, x ≠ Separator) ∧ (stripRestricted s).head? ≠ some '.' := by
  constructor
  · intro x hx hsep
    rw [hsep] at hx
    exact not_mem_stripRestricted s Separator (by decide) hx
  · intro h
    exact not_mem_stripRestricted s '.' (by decide) (List.mem_of_mem_head? h)

theorem stripRestricted_chapterName_ne_nil (upper : Char → Char) (cfg : Config)
    (chapter : Chapter) : stripRestricted (chapterNameSpec upper cfg chapter) ≠ [] := by
  have : 'C' ∈ stripRestricted (chapterNameSpec upper cfg chapter) := by
    apply List.mem_filter.mpr
    refine ⟨?_, by decide⟩
    simp [chapterNameSpec]
  exact List.ne_nil_of_mem this

/-- On ASCII, the arithmetic of `unicode.ToUpper` is the upper-case letter of the alphabet. -/
theorem asciiUpper_table : ∀ n, n < 128 →
    (if 97 ≤ (Char.ofNat n).toNat ∧ (Char.ofNat n).toNat ≤ 122 then
        Char.ofNat ((Char.ofNat n).toNat - 32) else Char.ofNat n) =
      (if Char.ofNat n ∈ lowerLetters then
        upperLetters.getD (lowerLetters.indexOf (Char.ofNat n)) (Char.ofNat n)
       else Char.ofNat n) := by
  decide

/-- C3, as stated, fails: for the manga title `???`, whose sanitized form `M` is empty, the
path returned is `downloads/Chapter1 [EN-data] Start_ab12`: two components, not the three
components root, `M` and `C` joined by the separator, which would read
`downloads//Chapter1 [EN-data] Start_ab12`. -/
theorem getDownloadFolder_two_components :
    getDownloadFolder id plainConfig questionPage chapterOne =
        "downloads/Chapter1 [EN-data] Start_ab12".toList ∧
      stripRestricted questionPage.MangaTitle = [] ∧
      stripRestricted (chapterNameSpec id plainConfig chapterOne) =
        "Chapter1 [EN-data] Start_ab12".toList ∧
      getDownloadFolder id plainConfig questionPage chapterOne ≠
        joinedBySeparator plainConfig.DownloadDir (stripRestricted questionPage.MangaTitle)
          (stripRestricted (chapterNameSpec id plainConfig chapterOne)) ++
          (if plainConfig.AsZip then '.' :: plainConfig.ZipType else []) := by
  refine ⟨by decide, by decide, by decide, by decide⟩

/-- C3, amended: for every input, `getDownloadFolder` returns `filepath.Join(root, M, C)`,
followed by `"." + ZipType` exactly when `AsZip` is set, where `M` is the manga title and `C`
is `"Chapter" + number + " [" + uppercase(language) + "-" + quality + "] " + title + "_" +`
(the chapter id up to its first hyphen), each with every restricted character removed.
`filepath.Join` skips the leading empty components, joins the rest with the separator and
cleans the result.  When the root is a clean path other than `.` and `/` and `M` is not
empty, the result is the three components joined by the separator,
`root + "/" + M + "/" + C`. -/
theorem getDownloadFolder_eq_join (upper : Char → Char) (cfg : Config) (p : MangaPage)
    (chapter : Chapter) :
    getDownloadFolder upper cfg p chapter =
      filepathJoin [cfg.DownloadDir, stripRestricted p.MangaTitle,
        stripRestricted (chapterNameSpec upper cfg chapter)] ++
        (if cfg.AsZip then '.' :: cfg.ZipType else []) ∧
    filepathJoin [cfg.DownloadDir, stripRestricted p.MangaTitle,
        stripRestricted (chapterNameSpec upper cfg chapter)] =
      (if cfg.DownloadDir ≠ [] then
        filepathClean (joinedBySeparator cfg.DownloadDir (stripRestricted p.MangaTitle)
          (stripRestricted (chapterNameSpec upper cfg chapter)))
       else if stripRestricted p.MangaTitle ≠ [] then
        filepathClean (stripRestricted p.MangaTitle ++
          '/' :: stripRestricted (chapterNameSpec upper cfg chapter))
       else filepathClean (stripRestricted (chapterNameSpec upper cfg chapter))) ∧
    (filepathClean cfg.DownloadDir = cfg.DownloadDir → cfg.DownloadDir ≠ ['.'] →
      cfg.DownloadDir ≠ ['/'] → stripRestricted p.MangaTitle ≠ [] →
      getDownloadFolder upper cfg p chapter =
        joinedBySeparator cfg.DownloadDir (stripRestricted p.MangaTitle)
          (stripRestricted (chapterNameSpec upper cfg chapter)) ++
          (if cfg.AsZip then '.' :: cfg.ZipType else [])) := by
  have hletter : ∀ c : Char, unicodeToUpper upper c = upperLetter upper c := by
    intro c
    by_cases h : c.toNat ≤ 127
    · have hc : Char.ofNat c.toNat = c := Char.ofNat_toNat c
      have ht := asciiUpper_table c.toNat (by omega)
      rw [hc] at ht
      unfold unicodeToUpper upperLetter
      rw [if_pos h, ht]
      by_cases hm : c ∈ lowerLetters
      · rw [if_pos hm, if_pos hm]
      · rw [if_neg hm, if_neg hm, if_pos h]
    · have hm : c ∉ lowerLetters := by
        intro hmem
        have hall : ∀ x ∈ lowerLetters, x.toNat ≤ 127 := by decide
        exact h (hall c hmem)
      unfold unicodeToUpper upperLetter
      rw [if_neg h, if_neg hm, if_neg h]
  have hupper : stringsToUpper upper chapter.TranslatedLanguage =
      uppercaseSpec upper chapter.TranslatedLanguage := by
    unfold stringsToUpper uppercaseSpec
    exact List.map_congr_left (fun c _ => hletter c)
  have hname : chapterNameOf upper cfg chapter = chapterNameSpec upper cfg chapter := by
    simp only [chapterNameOf, chapterNameSpec, splitN_head, hupper]
  have hC := stripRestricted_chapterName_ne_nil upper cfg chapter
  have hmain : getDownloadFolder upper cfg p chapter =
      filepathJoin [cfg.DownloadDir, stripRestricted p.MangaTitle,
        stripRestricted (chapterNameSpec upper cfg chapter)] ++
        (if cfg.AsZip then '.' :: cfg.ZipType else []) := by
    unfold getDownloadFolder
    simp only [removeRestricted_eq, hname]
    by_cases hz : cfg.AsZip = true <;> simp [hz]
  refine ⟨hmain, ?_, fun hclean hdot hslash hM => ?_⟩
  · by_cases hr : cfg.DownloadDir = []
    · by_cases hM : stripRestricted p.MangaTitle = []
      · simp [filepathJoin, hr, hM, hC, stringsJoin, List.intercalate, List.intersperse]
      · simp [filepathJoin, hr, hM, stringsJoin, List.intercalate, List.intersperse, Separator]
    · rw [if_pos hr]
      simp only [filepathJoin, hr, ne_eq, not_false_eq_true, if_true, stringsJoin_three]
      rfl
  · rw [hmain, filepathJoin_clean_root cfg.DownloadDir _ _ hclean hdot hslash hM
      (stripRestricted_elem _).1 (stripRestricted_elem _).2 hC
      (stripRestricted_elem _).1 (stripRestricted_elem _).2]
    rfl

/-- Witness for C3: with the clean download root `downloads`, the title `So/lo: A?`, the
chapter number `1.5`, the language `pt-br`, the chapter title `Hi: there?` and the id
`ab12-cd34-ef56`, the path is `downloads/Solo A/Chapter15 [PT-BR-data] Hi there_ab12.zip`;
with the root `./downloads//` and the title `Solo` it is cleaned to
`downloads/Solo/Chapter1 [EN-data] Start_ab12`. -/
theorem getDownloadFolder_eq_join_witness :
    filepathClean zipConfig.DownloadDir = zipConfig.DownloadDir ∧
    stripRestricted richPage.MangaTitle = "Solo A".toList ∧
    stripRestricted (chapterNameSpec id zipConfig chapterRich) =
      "Chapter15 [PT-BR-data] Hi there_ab12".toList ∧
    getDownloadFolder id zipConfig richPage chapterRich =
      joinedBySeparator zipConfig.DownloadDir (stripRestricted richPage.MangaTitle)
        (stripRestricted (chapterNameSpec id zipConfig chapterRich)) ++
        (if zipConfig.AsZip then '.' :: zipConfig.ZipType else []) ∧
    getDownloadFolder id zipConfig richPage chapterRich =
      "downloads/Solo A/Chapter15 [PT-BR-data] Hi there_ab12.zip".toList ∧
    getDownloadFolder id messyConfig soloPage chapterOne =
      filepathJoin [messyConfig.DownloadDir, stripRestricted soloPage.MangaTitle,
        stripRestricted (chapterNameSpec id messyConfig chapterOne)] ++
        (if messyConfig.AsZip then '.' :: messyConfig.ZipType else []) ∧
    getDownloadFolder id messyConfig soloPage chapterOne =
      "downloads/Solo/Chapter1 [EN-data] Start_ab12".toList :=
  ⟨by decide, by decide, by decide,
    (getDownloadFolder_eq_join id zipConfig richPage chapterRich).2.2 (by decide) (by decide)
      (by decide) (by decide),
    by decide,
    (getDownloadFolder_eq_join id messyConfig soloPage chapterOne).1,
    by decide⟩

/-! ## The page loop of `saveChapter` -/

@[simp] theorem emit_log (w : World) (e : Event) : (w.emit e).log = w.log ++ [e] := rfl

@[simp] theorem emit_dirs (w : World) (e : Event) : (w.emit e).dirs = w.dirs := rfl

@[simp] theorem emit_archives (w : World) (e : Event) : (w.emit e).archives = w.archives := rfl

theorem savePages_cons_error (env : Env) (folder : GoString) (num : Nat) (page : GoString)
    (rest : List GoString) (w : World) (err : GoError)
    (h : env.getChapterPage w page = .error err) :
    savePages env folder num (page :: rest) w = (some err, w.emit (.fetchFailed page err)) := by
  simp only [savePages, getChapterPage, h]

/-- A run of the page loop that returns `nil` fetched and wrote every page, in order, and
touched nothing but the chapter directory. -/
theorem savePages_none (env : Env) (folder : GoString) :
    ∀ (pages : List GoString) (num : Nat) (w w1 : World),
      savePages env folder num pages w = (none, w1) →
      ∃ images : List Bytes, images.length = pages.length ∧
        w1.log = w.log ++ pageEvents folder num pages images ∧
        w1.archives = w.archives ∧
        (∀ d, d ≠ folder → w1.dirs d = w.dirs d) ∧
        (∀ es, w.dirs folder = some es →
          w1.dirs folder = some (putPages num pages images es)) := by
  intro pages
  induction pages with
  | nil =>
    intro num w w1 h
    simp only [savePages, Prod.mk.injEq, true_and] at h
    subst h
    exact ⟨[], rfl, by simp [pageEvents], rfl, fun _ _ => rfl, fun es hes => by simpa [putPages]⟩
  | cons page rest ih =>
    intro num w w1 h
    cases hf : env.getChapterPage w page with
    | error err => simp [savePages, getChapterPage, hf] at h
    | ok image =>
      cases hw : env.writeFile (w.emit (.fetched page image))
          (filepathJoin [folder, sprintf04d (num + 1) ++ filepathExt page]) image with
      | some err => simp [savePages, getChapterPage, hf, osWriteFile, hw] at h
      | none =>
        cases hd : w.dirs folder with
        | none => simp [savePages, getChapterPage, hf, osWriteFile, hw, hd] at h
        | some es =>
          simp only [savePages, getChapterPage, hf, osWriteFile, hw, emit_dirs, hd] at h
          obtain ⟨images, hlen, hlog, harch, hother, hdir⟩ := ih _ _ _ h
          refine ⟨image :: images, by simp [hlen], ?_, ?_, ?_, ?_⟩
          · simp [hlog, pageEvents, pageFileName]
          · simpa using harch
          · intro d hne
            rw [hother d hne]
            simp [Function.update, hne]
          · intro es1 hes1
            have : es1 = es := (Option.some.inj hes1).symm
            subst this
            rw [hdir (putFile (sprintf04d (num + 1) ++ filepathExt page) image es1)
              (by simp [Function.update])]
            simp [putPages, pageFileName]

/-- If the directory exists and every fetch and write succeeds, the page loop returns `nil`. -/
theorem savePages_ok (env : Env) (folder : GoString)
    (hwrite : ∀ w path data, env.writeFile w path data = none) :
    ∀ (pages : List GoString) (num : Nat) (w : World) (es : List (GoString × Node)),
      w.dirs folder = some es →
      (∀ w1 page, page ∈ pages → ∃ image, env.getChapterPage w1 page = .ok image) →
      (savePages env folder num pages w).1 = none := by
  intro pages
  induction pages with
  | nil => intro num w es _ _; rfl
  | cons page rest ih =>
    intro num w es hd hfetch
    obtain ⟨image, hf⟩ := hfetch w page (List.mem_cons_self _ _)
    simp only [savePages, getChapterPage, hf, osWriteFile, hwrite, emit_dirs, hd]
    exact ih _ _ (putFile (sprintf04d (num + 1) ++ filepathExt page) image es)
      (by simp [Function.update]) (fun w1 pg hpg => hfetch w1 pg (List.mem_cons_of_mem _ hpg))

theorem savePages_append (env : Env) (folder : GoString) :
    ∀ (xs ys : List GoString) (num : Nat) (w w1 : World),
      savePages env folder num xs w = (none, w1) →
      savePages env folder num (xs ++ ys) w = savePages env folder (num + xs.length) ys w1 := by
  intro xs
  induction xs with
  | nil =>
    intro ys num w w1 h
    simp only [savePages, Prod.mk.injEq, true_and] at h
    subst h
    simp
  | cons page rest ih =>
    intro ys num w w1 h
    cases hf : env.getChapterPage w page with
    | error err => simp [savePages, getChapterPage, hf] at h
    | ok image =>
      cases hw : env.writeFile (w.emit (.fetched page image))
          (filepathJoin [folder, sprintf04d (num + 1) ++ filepathExt page]) image with
      | some err => simp [savePages, getChapterPage, hf, osWriteFile, hw] at h
      | none =>
        cases hd : w.dirs folder with
        | none => simp [savePages, getChapterPage, hf, osWriteFile, hw, hd] at h
        | some es =>
          simp only [savePages, getChapterPage, hf, osWriteFile, hw, emit_dirs, hd] at h
          have step := ih ys _ _ _ h
          simp only [List.cons_append, savePages, getChapterPage, hf, osWriteFile, hw,
            emit_dirs, hd]
          have happ : rest.append ys = rest ++ ys := rfl
          rw [happ, step]
          simp [Nat.add_assoc, Nat.add_comm 1]

/-! ## Page file names are pairwise distinct -/

theorem digitChar_spec : ∀ k, k < 10 →
    (Nat.digitChar k).isDigit = true ∧ (Nat.digitChar k).toNat - 48 = k := by
  decide

theorem decValue_append (s t : GoString) :
    decValue (s ++ t) = t.foldl (fun a c => 10 * a + (c.toNat - 48)) (decValue s) := by
  simp [decValue, List.foldl_append]

theorem toDigitsCore_spec :
    ∀ (fuel n : Nat) (ds : List Char), n < fuel →
      ∃ pre : List Char, Nat.toDigitsCore 10 fuel n ds = pre ++ ds ∧
        (∀ c ∈ pre, c.isDigit = true) ∧ decValue pre = n := by
  intro fuel
  induction fuel with
  | zero => intro n ds h; omega
  | succ fuel ih =>
    intro n ds h
    have hd := digitChar_spec (n % 10) (Nat.mod_lt _ (by decide))
    by_cases h0 : n / 10 = 0
    · refine ⟨[Nat.digitChar (n % 10)], by simp [Nat.toDigitsCore, h0], ?_, ?_⟩
      · intro c hc
        simp only [List.mem_singleton] at hc
        subst hc
        exact hd.1
      · simp only [decValue, List.foldl, hd.2]
        omega
    · have hlt : n / 10 < fuel := by omega
      obtain ⟨pre, hpre, hdig, hval⟩ := ih (n / 10) (Nat.digitChar (n % 10) :: ds) hlt
      refine ⟨pre ++ [Nat.digitChar (n % 10)], by simp [Nat.toDigitsCore, h0, hpre], ?_, ?_⟩
      · intro c hc
        rcases List.mem_append.mp hc with hc | hc
        · exact hdig c hc
        · simp only [List.mem_singleton] at hc
          subst hc
          exact hd.1
      · rw [decValue_append, hval]
        simp only [List.foldl, hd.2]
        omega

theorem decValue_replicate_zero (k : Nat) (s : GoString) :
    decValue (List.replicate k '0' ++ s) = decValue s := by
  induction k with
  | zero => simp
  | succ k ih =>
    have h0 : decValue (List.replicate (k + 1) '0') = 0 := by
      clear ih
      induction k with
      | zero => rfl
      | succ k ih2 =>
        rw [List.replicate_succ', decValue_append, ih2]
        rfl
    rw [decValue_append, h0]
    rfl

theorem sprintf04d_spec (n : Nat) :
    (∀ c ∈ sprintf04d n, c.isDigit = true) ∧ decValue (sprintf04d n) = n := by
  obtain ⟨pre, hpre, hdig, hval⟩ := toDigitsCore_spec (n + 1) n [] (Nat.lt_succ_self n)
  have hT : Nat.toDigits 10 n = pre := by simpa [Nat.toDigits] using hpre
  constructor
  · intro c hc
    simp only [sprintf04d, hT, List.mem_append] at hc
    rcases hc with hc | hc
    · rw [(List.mem_replicate.mp hc).2]
      rfl
    · exact hdig c hc
  · simp only [sprintf04d, hT]
    rw [decValue_replicate_zero, hval]

theorem extLoop_form : ∀ (rev acc : GoString),
    extLoop rev acc = [] ∨ ∃ t, extLoop rev acc = '.' :: t := by
  intro rev
  induction rev with
  | nil => intro acc; left; rfl
  | cons c rev ih =>
    intro acc
    by_cases h1 : c = Separator
    · left; simp [extLoop, h1]
    · by_cases h2 : c = '.'
      · right; exact ⟨acc, by subst h2; simp [extLoop, h1]⟩
      · simpa [extLoop, h1, h2] using ih (c :: acc)

theorem takeWhile_digits (ds ext : GoString) (hds : ∀ c ∈ ds, c.isDigit = true)
    (hext : ext = [] ∨ ∃ t, ext = '.' :: t) :
    (ds ++ ext).takeWhile Char.isDigit = ds := by
  induction ds with
  | nil =>
    rcases hext with h | ⟨t, h⟩
    · simp [h]
    · subst h
      rw [List.nil_append, List.takeWhile_cons]
      rfl
  | cons c ds ih =>
    have hc : c.isDigit = true := hds c (List.mem_cons_self _ _)
    rw [List.cons_append, List.takeWhile_cons, if_pos hc,
      ih (fun x hx => hds x (List.mem_cons_of_mem _ hx))]

theorem pageFileName_number (num : Nat) (page : GoString) :
    decValue ((pageFileName num page).takeWhile Char.isDigit) = num + 1 := by
  unfold pageFileName filepathExt
  rw [takeWhile_digits _ _ (sprintf04d_spec (num + 1)).1 (extLoop_form page.reverse [])]
  exact (sprintf04d_spec (num + 1)).2

theorem pageFileName_inj (a b : Nat) (p q : GoString)
    (h : pageFileName a p = pageFileName b q) : a = b := by
  have ha := pageFileName_number a p
  rw [h, pageFileName_number b q] at ha
  omega

/-! ## The directory listing after the page files are written -/

theorem putFile_fresh (name : GoString) (data : Bytes) :
    ∀ es : List (GoString × Node), (∀ e ∈ es, e.1 ≠ name) →
      (putFile name data es).length = es.length + 1 ∧
      ∀ e, e ∈ putFile name data es ↔ e = (name, Node.file data) ∨ e ∈ es := by
  intro es
  induction es with
  | nil => intro _; simp [putFile]
  | cons x rest ih =>
    intro hfresh
    obtain ⟨n, nd⟩ := x
    have hn : ¬ n = name := hfresh (n, nd) (List.mem_cons_self _ _)
    obtain ⟨hlen, hmem⟩ := ih (fun e he => hfresh e (List.mem_cons_of_mem _ he))
    by_cases hlt : nameLt name n = true
    · simp [putFile, hn, hlt]
    · simp only [putFile, hn, hlt, if_false, List.length_cons, hlen, true_and, Bool.false_eq_true]
      intro e
      simp only [List.mem_cons, hmem]
      tauto

theorem putPages_spec :
    ∀ (pages : List GoString) (num : Nat) (images : List Bytes) (es : List (GoString × Node)),
      images.length = pages.length →
      (∀ e ∈ es, ∀ i page, e.1 ≠ pageFileName (num + i) page) →
      (putPages num pages images es).length = es.length + pages.length ∧
      ∀ e, e ∈ putPages num pages images es ↔
        e ∈ es ∨ ∃ i page image, pages[i]? = some page ∧ images[i]? = some image ∧
          e = (pageFileName (num + i) page, Node.file image) := by
  intro pages
  induction pages with
  | nil =>
    intro num images es _ _
    cases images <;> simp [putPages]
  | cons pg rest ih =>
    intro num images es hlen hfresh
    cases images with
    | nil => simp at hlen
    | cons img imgs =>
      have hlen1 : imgs.length = rest.length := by simpa using hlen
      obtain ⟨hl, hm⟩ := putFile_fresh (pageFileName num pg) img es
        (fun e he => by simpa using hfresh e he 0 pg)
      have hfresh1 : ∀ e ∈ putFile (pageFileName num pg) img es, ∀ i page,
          e.1 ≠ pageFileName (num + 1 + i) page := by
        intro e he i page
        rcases (hm e).mp he with h | h
        · subst h
          intro heq
          have := pageFileName_inj _ _ _ _ heq
          omega
        · have := hfresh e h (1 + i) page
          simpa [Nat.add_assoc] using this
      obtain ⟨hl2, hm2⟩ := ih (num + 1) imgs _ hlen1 hfresh1
      constructor
      · simp only [putPages, hl2, hl, List.length_cons]
        omega
      · intro e
        simp only [putPages, hm2, hm]
        constructor
        · rintro ((h | h) | ⟨i, page, image, h1, h2, h3⟩)
          · exact Or.inr ⟨0, pg, img, by simp, by simp, by simpa using h⟩
          · exact Or.inl h
          · exact Or.inr ⟨i + 1, page, image, by simpa using h1, by simpa using h2,
              by rw [h3]; simp [Nat.add_assoc, Nat.add_comm 1]⟩
        · rintro (h | ⟨i, page, image, h1, h2, h3⟩)
          · exact Or.inl (Or.inr h)
          · cases i with
            | zero =>
              simp only [List.getElem?_cons_zero, Option.some.injEq] at h1 h2
              subst h1 h2
              exact Or.inl (Or.inl (by simpa using h3))
            | succ i =>
              simp only [List.getElem?_cons_succ] at h1 h2
              exact Or.inr ⟨i, page, image, h1, h2,
                by rw [h3]; simp [Nat.add_assoc, Nat.add_comm 1]⟩

/-! ## `saveChapter` -/

/-- Building the downloader and creating a directory that is absent or empty, both
succeeding, leave the directory present and empty. -/
theorem setup_ok (env : Env) (cfg : Config) (chapter : Chapter) (folder : GoString) (w : World)
    (hempty : w.dirs folder = none ∨ w.dirs folder = some [])
    (hclient : env.newMDHomeClient w chapter cfg.DownloadQuality cfg.ForcePort443 = none)
    (hmkdir : env.mkdirAll
      (w.emit (.newMDHomeClient chapter.ID cfg.DownloadQuality cfg.ForcePort443)) folder = none) :
    ∃ w2, newMDHomeClient env w chapter cfg.DownloadQuality cfg.ForcePort443 =
        (none, w.emit (.newMDHomeClient chapter.ID cfg.DownloadQuality cfg.ForcePort443)) ∧
      osMkdirAll env (w.emit (.newMDHomeClient chapter.ID cfg.DownloadQuality cfg.ForcePort443))
        folder = (none, w2) ∧
      w2.dirs folder = some [] ∧
      w2.log = w.log ++ [.newMDHomeClient chapter.ID cfg.DownloadQuality cfg.ForcePort443,
        .mkdirAll folder] := by
  refine ⟨(osMkdirAll env
    (w.emit (.newMDHomeClient chapter.ID cfg.DownloadQuality cfg.ForcePort443)) folder).2,
    by simp [newMDHomeClient, hclient], ?_, ?_, ?_⟩
  · rcases hempty with h | h <;> simp [osMkdirAll, hmkdir, h]
  · rcases hempty with h | h <;> simp [osMkdirAll, hmkdir, h, Function.update]
  · rcases hempty with h | h <;> simp [osMkdirAll, hmkdir, h]

/-- C4: with archiving off, if the downloader is built, the (absent or empty) directory is
created and every fetch and write succeeds, `saveChapter` returns `nil`; the directory then
holds exactly one file per page of the selected list, the file of page `i` (counted from 1)
being named `i` padded to four digits followed by the extension of the page reference and
holding the bytes fetched for that page; and the history is, after the construction and
the `MkdirAll`, the fetch and the write of each page in increasing `i`. -/
theorem saveChapter_plain_success (env : Env) (cfg : Config) (p : MangaPage) (chapter : Chapter)
    (w : World) (pages : List GoString) (folder : GoString)
    (hpages : pages =
      if cfg.DownloadQuality = "data-saver".toList then chapter.DataSaver else chapter.Data)
    (hfolder : folder = getDownloadFolder env.upper cfg p chapter)
    (hzip : cfg.AsZip = false)
    (hempty : w.dirs folder = none ∨ w.dirs folder = some [])
    (hclient : ∀ w1, env.newMDHomeClient w1 chapter cfg.DownloadQuality cfg.ForcePort443 = none)
    (hmkdir : ∀ w1, env.mkdirAll w1 folder = none)
    (hfetch : ∀ w1 page, page ∈ pages → ∃ image, env.getChapterPage w1 page = .ok image)
    (hwrite : ∀ w1 path data, env.writeFile w1 path data = none) :
    (saveChapter env cfg p chapter w).1 = none ∧
    ∃ (images : List Bytes) (entries : List (GoString × Node)),
      images.length = pages.length ∧
      (saveChapter env cfg p chapter w).2.dirs folder = some entries ∧
      entries.length = pages.length ∧
      (∀ e, e ∈ entries ↔ ∃ i page image, pages[i]? = some page ∧ images[i]? = some image ∧
        e = (sprintf04d (i + 1) ++ filepathExt page, Node.file image)) ∧
      (saveChapter env cfg p chapter w).2.log =
        w.log ++ [.newMDHomeClient chapter.ID cfg.DownloadQuality cfg.ForcePort443,
          .mkdirAll folder] ++ pageEvents folder 0 pages images := by
  obtain ⟨w2, h1, h2, hd2, hl2⟩ := setup_ok env cfg chapter folder w hempty (hclient _) (hmkdir _)
  have hp : pagesOf cfg chapter = pages := by rw [hpages]; rfl
  have hok := savePages_ok env folder hwrite pages 0 w2 [] hd2 hfetch
  obtain ⟨images, hlen, hlog, -, -, hdir⟩ :=
    savePages_none env folder pages 0 w2 (savePages env folder 0 pages w2).2
      (Prod.ext hok rfl)
  have hsave : saveChapter env cfg p chapter w = (none, (savePages env folder 0 pages w2).2) := by
    simp only [saveChapter, savePagesOf, h1, ← hfolder, h2, hp, hzip]
    rw [show savePages env folder 0 pages w2 = (none, (savePages env folder 0 pages w2).2)
      from Prod.ext hok rfl]
    simp
  obtain ⟨hl, hm⟩ := putPages_spec pages 0 images [] hlen (by simp)
  rw [hsave]
  refine ⟨rfl, images, putPages 0 pages images [], hlen, hdir [] hd2, by simpa using hl, ?_, ?_⟩
  · intro e
    rw [hm e]
    simp [pageFileName]
  · simp only [hlog, hl2]

theorem pageEvents_mem (folder : GoString) :
    ∀ (pages : List GoString) (num : Nat) (images : List Bytes) (e : Event),
      e ∈ pageEvents folder num pages images →
      (∃ page image, e = .fetched page image) ∨ (∃ path image, e = .writeFile path image) := by
  intro pages
  induction pages with
  | nil => intro num images e h; simp [pageEvents] at h
  | cons pg rest ih =>
    intro num images e h
    cases images with
    | nil => simp [pageEvents] at h
    | cons img imgs =>
      simp only [pageEvents, List.mem_cons] at h
      rcases h with h | h | h
      · exact Or.inl ⟨_, _, h⟩
      · exact Or.inr ⟨_, _, h⟩
      · exact ih _ _ _ h

theorem pageEvents_writes (folder : GoString) :
    ∀ (pages : List GoString) (num : Nat) (images : List Bytes),
      images.length = pages.length →
      (pageEvents folder num pages images).filterMap
          (fun e => match e with
            | .writeFile path image => some (path, image)
            | _ => none) =
        (List.range pages.length).filterMap (fun i =>
          match pages[i]?, images[i]? with
          | some page, some image =>
            some (filepathJoin [folder, pageFileName (num + i) page], image)
          | _, _ => none) := by
  intro pages
  induction pages with
  | nil => intro num images _; simp [pageEvents]
  | cons pg rest ih =>
    intro num images hlen
    cases images with
    | nil => simp at hlen
    | cons img imgs =>
      have hlen1 : imgs.length = rest.length := by simpa using hlen
      simp only [pageEvents, List.filterMap_cons, List.length_cons, List.range_succ_eq_map,
        List.getElem?_cons_zero, Nat.add_zero, List.filterMap_map, ih (num + 1) imgs hlen1]
      congr 1
      apply List.filterMap_congr
      intro i _
      simp [Nat.add_assoc, Nat.add_comm 1]

theorem split_at_page (pages : List GoString) (k : Nat) (page : GoString) (hk : 1 ≤ k)
    (hpage : pages[k - 1]? = some page) :
    pages = pages.take (k - 1) ++ page :: pages.drop k := by
  obtain ⟨hlt, hget⟩ := List.getElem?_eq_some.mp hpage
  have h1 : pages.drop (k - 1) = page :: pages.drop k := by
    rw [List.drop_eq_getElem_cons hlt, hget]
    congr 2
    omega
  rw [← h1, List.take_append_drop]

/-- C5: if the downloader is built and the directory created, the loop over pages
`1 .. k-1` runs to its end without error, and the fetch of page `k` then fails, then
`saveChapter` returns that fetch error; the history since the call is the construction,
the `MkdirAll`, the fetch and write of each of the pages `1 .. k-1` in order, and the
failed fetch.  So exactly `k-1` files were written, nothing is fetched or written after
page `k`, and neither the archiver (`os.Create`) nor `os.RemoveAll` is invoked. -/
theorem saveChapter_fetch_failure (env : Env) (cfg : Config) (p : MangaPage) (chapter : Chapter)
    (w : World) (pages : List GoString) (folder : GoString) (k : Nat) (page : GoString)
    (err : GoError)
    (hpages : pages =
      if cfg.DownloadQuality = "data-saver".toList then chapter.DataSaver else chapter.Data)
    (hfolder : folder = getDownloadFolder env.upper cfg p chapter)
    (hk : 1 ≤ k) (hpage : pages[k - 1]? = some page)
    (hclient : env.newMDHomeClient w chapter cfg.DownloadQuality cfg.ForcePort443 = none)
    (hmkdir : env.mkdirAll
      (w.emit (.newMDHomeClient chapter.ID cfg.DownloadQuality cfg.ForcePort443)) folder = none)
    (hfirst : (savePages env folder 0 (pages.take (k - 1)) (osMkdirAll env
      (w.emit (.newMDHomeClient chapter.ID cfg.DownloadQuality cfg.ForcePort443)) folder).2).1
        = none)
    (hfail : env.getChapterPage (savePages env folder 0 (pages.take (k - 1)) (osMkdirAll env
      (w.emit (.newMDHomeClient chapter.ID cfg.DownloadQuality cfg.ForcePort443)) folder).2).2
        page = .error err) :
    (saveChapter env cfg p chapter w).1 = some err ∧
    ∃ images : List Bytes, images.length = k - 1 ∧
      (saveChapter env cfg p chapter w).2.log =
        w.log ++ [.newMDHomeClient chapter.ID cfg.DownloadQuality cfg.ForcePort443,
          .mkdirAll folder] ++ pageEvents folder 0 (pages.take (k - 1)) images ++
          [.fetchFailed page err] ∧
      ((pageEvents folder 0 (pages.take (k - 1)) images).filterMap
          (fun e => match e with
            | .writeFile path image => some (path, image)
            | _ => none)).length = k - 1 ∧
      (∀ path, Event.create path ∉ (saveChapter env cfg p chapter w).2.log.drop w.log.length) ∧
      (∀ path, Event.removeAll path ∉
        (saveChapter env cfg p chapter w).2.log.drop w.log.length) := by
  have hlt : k - 1 < pages.length := (List.getElem?_eq_some.mp hpage).1
  have hp : pagesOf cfg chapter = pages := by rw [hpages]; rfl
  have h1 : newMDHomeClient env w chapter cfg.DownloadQuality cfg.ForcePort443 =
      (none, w.emit (.newMDHomeClient chapter.ID cfg.DownloadQuality cfg.ForcePort443)) := by
    simp [newMDHomeClient, hclient]
  have h2 : (osMkdirAll env
      (w.emit (.newMDHomeClient chapter.ID cfg.DownloadQuality cfg.ForcePort443)) folder).1
        = none := by
    simp only [osMkdirAll, hmkdir]
    split <;> rfl
  have hl2 : (osMkdirAll env
      (w.emit (.newMDHomeClient chapter.ID cfg.DownloadQuality cfg.ForcePort443)) folder).2.log
        = w.log ++ [.newMDHomeClient chapter.ID cfg.DownloadQuality cfg.ForcePort443,
          .mkdirAll folder] := by
    simp only [osMkdirAll, hmkdir]
    split <;> simp
  generalize hw2 : (osMkdirAll env
      (w.emit (.newMDHomeClient chapter.ID cfg.DownloadQuality cfg.ForcePort443)) folder).2
        = w2 at hfirst hfail hl2
  have h2' : osMkdirAll env
      (w.emit (.newMDHomeClient chapter.ID cfg.DownloadQuality cfg.ForcePort443)) folder
        = (none, w2) := Prod.ext h2 hw2
  generalize hw3 : (savePages env folder 0 (pages.take (k - 1)) w2).2 = w3 at hfail
  have hpre : savePages env folder 0 (pages.take (k - 1)) w2 = (none, w3) :=
    Prod.ext hfirst hw3
  obtain ⟨images, hlen, hlog, -, -, -⟩ := savePages_none env folder _ 0 w2 w3 hpre
  have hlen' : images.length = k - 1 := by
    rw [hlen, List.length_take]
    omega
  have hall : savePages env folder 0 pages w2 = (some err, w3.emit (.fetchFailed page err)) := by
    conv_lhs => rw [split_at_page pages k page hk hpage]
    rw [savePages_append env folder _ _ 0 w2 w3 hpre]
    exact savePages_cons_error env folder _ page _ w3 err hfail
  have hsave : saveChapter env cfg p chapter w = (some err, w3.emit (.fetchFailed page err)) := by
    simp only [saveChapter, savePagesOf, h1, ← hfolder, h2', hp, hall]
  have hfinal : (w3.emit (.fetchFailed page err)).log =
      w.log ++ ([.newMDHomeClient chapter.ID cfg.DownloadQuality cfg.ForcePort443,
          .mkdirAll folder] ++ pageEvents folder 0 (pages.take (k - 1)) images ++
          [.fetchFailed page err]) := by
    simp [hlog, hl2]
  rw [hsave]
  refine ⟨rfl, images, hlen', by simp [hlog, hl2], ?_, ?_, ?_⟩
  · rw [pageEvents_writes folder _ 0 images hlen]
    have : ∀ n, n ≤ images.length → n ≤ (pages.take (k - 1)).length →
        ((List.range n).filterMap (fun i =>
          match (pages.take (k - 1))[i]?, images[i]? with
          | some page, some image =>
            some (filepathJoin [folder, pageFileName (0 + i) page], image)
          | _, _ => none)).length = n := by
      intro n
      induction n with
      | zero => intro _ _; rfl
      | succ n ih =>
        intro h1 h2
        rw [List.range_succ, List.filterMap_append, List.length_append, ih (by omega) (by omega)]
        have ha : (pages.take (k - 1))[n]? = some ((pages.take (k - 1))[n]) :=
          List.getElem?_eq_getElem (by omega)
        have hb : images[n]? = some (images[n]) := List.getElem?_eq_getElem (by omega)
        simp [ha, hb]
    rw [this _ (by omega) (Nat.le_refl _), List.length_take]
    omega
  · intro path hmem
    rw [hfinal, List.drop_left] at hmem
    simp only [List.mem_append, List.mem_cons, List.mem_singleton, List.not_mem_nil,
      or_false] at hmem
    rcases hmem with (h | h) | h
    · rcases h with h | h <;> cases h
    · rcases pageEvents_mem folder _ _ _ _ h with ⟨_, _, h⟩ | ⟨_, _, h⟩ <;> cases h
    · cases h
  · intro path hmem
    rw [hfinal, List.drop_left] at hmem
    simp only [List.mem_append, List.mem_cons, List.mem_singleton, List.not_mem_nil,
      or_false] at hmem
    rcases hmem with (h | h) | h
    · rcases h with h | h <;> cases h
    · rcases pageEvents_mem folder _ _ _ _ h with ⟨_, _, h⟩ | ⟨_, _, h⟩ <;> cases h
    · cases h

/-! ## The walk of `saveAsZipFolder` -/

theorem fill_add (a : Archive) (fh : FileHeader) (data : Bytes) :
    (a.add ⟨fh, []⟩).fill data = ⟨a.entries ++ [⟨fh, data⟩], a.finalised⟩ := by
  simp [Archive.add, Archive.fill]

theorem WalkSpec.refl_nil (zp : GoString) (w : World) (r : Option GoError) (hr : r = none → False)
    (expected : List (GoString × Bytes)) (evs : List Event) (hevs : ∀ e ∈ evs, e.isWalkOp = true)
    (w1 : World) (hd : w1.dirs = w.dirs) (ha : w1.archives = w.archives)
    (hl : w1.log = w.log ++ evs) : WalkSpec zp expected w (r, w1) := by
  refine ⟨hd, fun q _ => by rw [ha], evs, [], hl, hevs, ?_, fun h => (hr h).elim⟩
  rw [ha]
  cases w.archives zp <;> simp

theorem WalkSpec.comp (zp : GoString) (ex1 ex2 : List (GoString × Bytes)) (w w1 : World)
    (r2 : Option GoError × World)
    (h1 : WalkSpec zp ex1 w (none, w1)) (h2 : WalkSpec zp ex2 w1 r2) :
    WalkSpec zp (ex1 ++ ex2) w r2 := by
  obtain ⟨hd1, ho1, evs1, ents1, hl1, he1, ha1, hs1⟩ := h1
  obtain ⟨hd2, ho2, evs2, ents2, hl2, he2, ha2, hs2⟩ := h2
  obtain ⟨hs1a, hs1b⟩ := hs1 rfl
  refine ⟨hd2.trans hd1, fun q hq => (ho2 q hq).trans (ho1 q hq), evs1 ++ evs2, ents1 ++ ents2,
    ?_, ?_, ?_, ?_⟩
  · rw [hl2, hl1, List.append_assoc]
  · intro e he
    rcases List.mem_append.mp he with h | h
    · exact he1 e h
    · exact he2 e h
  · rw [ha2, ha1]
    cases w.archives zp <;> simp
  · intro hr
    obtain ⟨hs2a, hs2b⟩ := hs2 hr
    exact ⟨by simp [hs1a, hs2a], by simp [hs1b, hs2b]⟩

theorem WalkSpec.fail (zp : GoString) (ex1 ex2 : List (GoString × Bytes)) (w w1 : World)
    (err : GoError) (h1 : WalkSpec zp ex1 w (some err, w1)) :
    WalkSpec zp ex2 w (some err, w1) := by
  obtain ⟨hd1, ho1, evs1, ents1, hl1, he1, ha1, -⟩ := h1
  exact ⟨hd1, ho1, evs1, ents1, hl1, he1, ha1, fun h => by cases h⟩

/-- The walk function on a file: one entry named by the base name with the bytes of the file,
if it returns `nil`. -/
theorem zipWalkFn_file (env : Env) (zp path name : GoString) (data : Bytes) (w : World) :
    WalkSpec zp [(name, data)] w (zipWalkFn env zp path (some ⟨name, .file data⟩) none w) := by
  cases ho : env.openFile w path with
  | some err =>
    have : zipWalkFn env zp path (some ⟨name, .file data⟩) none w =
        (some err, w.emit (.openFile path)) := by
      simp [zipWalkFn, DirEntry.IsDir, osOpen, ho]
    rw [this]
    exact WalkSpec.refl_nil zp w _ (by simp) _ [.openFile path]
      (by simp [Event.isWalkOp]) _ rfl rfl rfl
  | none =>
    obtain ⟨fh, hfh⟩ : ∃ fh : FileHeader,
        FileHeader.mk name (env.now (w.emit (.openFile path))) Deflate = fh := ⟨_, rfl⟩
    have hname : fh.Name = name := by rw [← hfh]
    have hmeth : fh.Method = Deflate := by rw [← hfh]
    cases hc : env.createHeader (w.emit (.openFile path)) fh with
    | some err =>
      have : zipWalkFn env zp path (some ⟨name, .file data⟩) none w =
          (some err, ((w.emit (.openFile path)).emit (.createHeader fh)).emit
            (.closeFile path)) := by
        simp [zipWalkFn, DirEntry.IsDir, osOpen, ho, hfh, zipCreateHeader, hc, closeFile]
      rw [this]
      exact WalkSpec.refl_nil zp w _ (by simp) _
        [.openFile path, .createHeader fh, .closeFile path]
        (by simp [Event.isWalkOp]) _ rfl rfl (by simp)
    | none =>
      generalize hw2 : (zipCreateHeader env (w.emit (.openFile path)) zp fh).2 = w2
      have hz : zipCreateHeader env (w.emit (.openFile path)) zp fh = (none, w2) := by
        rw [← hw2]; simp [zipCreateHeader, hc]
      have hw2d : w2.dirs = w.dirs := by rw [← hw2]; simp [zipCreateHeader, hc]
      have hw2l : w2.log = w.log ++ [.openFile path, .createHeader fh] := by
        rw [← hw2]; simp [zipCreateHeader, hc]
      have hw2a : w2.archives = Function.update w.archives zp
          ((w.archives zp).map (·.add ⟨fh, []⟩)) := by
        rw [← hw2]; simp [zipCreateHeader, hc]
      cases hy : env.copy w2 name with
      | some err =>
        have : zipWalkFn env zp path (some ⟨name, .file data⟩) none w =
            (some err, (w2.emit (.copy name data)).emit (.closeFile path)) := by
          simp [zipWalkFn, DirEntry.IsDir, osOpen, ho, hfh, hz, ioCopy, DirEntry.contents, hy,
            closeFile]
        rw [this]
        refine ⟨by simp [hw2d], fun q hq => by simp [hw2a, Function.update, hq],
          [.openFile path, .createHeader fh, .copy name data, .closeFile path], [⟨fh, []⟩],
          by simp [hw2l], by simp [Event.isWalkOp], ?_, fun h => by cases h⟩
        simp only [emit_archives, hw2a, Function.update_same]
        cases w.archives zp <;> simp [Archive.add]
      | none =>
        have : zipWalkFn env zp path (some ⟨name, .file data⟩) none w =
            (none, ({ w2.emit (.copy name data) with
              archives := Function.update (w2.emit (.copy name data)).archives zp
                (((w2.emit (.copy name data)).archives zp).map (·.fill data)) } : World).emit
                  (.closeFile path)) := by
          simp [zipWalkFn, DirEntry.IsDir, osOpen, ho, hfh, hz, ioCopy, DirEntry.contents, hy,
            closeFile]
        rw [this]
        refine ⟨by simp [hw2d], fun q hq => by simp [hw2a, Function.update, hq],
          [.openFile path, .createHeader fh, .copy name data, .closeFile path], [⟨fh, data⟩],
          by simp [hw2l], by simp [Event.isWalkOp], ?_, fun _ => ?_⟩
        · simp only [emit_archives, hw2a, Function.update_same]
          cases w.archives zp <;> simp [fill_add]
        · simp [hname, hmeth, Event.headerName]

theorem WalkSpec.after_readDir (zp path : GoString) (expected : List (GoString × Bytes))
    (w : World) (r : Option GoError × World)
    (h : WalkSpec zp expected (w.emit (.readDir path)) r) : WalkSpec zp expected w r := by
  obtain ⟨hd, ho, evs, ents, hl, he, ha, hs⟩ := h
  refine ⟨hd, ho, .readDir path :: evs, ents, by simp [hl], ?_, ha, fun hr => ?_⟩
  · intro e hmem
    rcases List.mem_cons.mp hmem with h | h
    · rw [h]; rfl
    · exact he e h
  · obtain ⟨ha1, hb1⟩ := hs hr
    exact ⟨ha1, by simpa [Event.headerName] using hb1⟩

mutual
/-- The walk of a node by `saveAsZipFolder`. -/
theorem walkDir_zip (env : Env) (zp : GoString) :
    ∀ (node : Node) (path name : GoString) (w : World),
      WalkSpec zp (filesUnder name node) w (walkDir env (zipWalkFn env zp) path name node w)
  | .file data, path, name, w => by
    simp only [walkDir, filesUnder]
    exact zipWalkFn_file env zp path name data w
  | .dir entries, path, name, w => by
    have hfn : zipWalkFn env zp path (some ⟨name, .dir entries⟩) none w = (none, w) := by
      simp [zipWalkFn, DirEntry.IsDir]
    simp only [walkDir, filesUnder, hfn]
    cases hr : env.readDir w path with
    | some err =>
      have : zipWalkFn env zp path (some ⟨name, .dir entries⟩) (some err)
          (w.emit (.readDir path)) = (some err, w.emit (.readDir path)) := by
        simp [zipWalkFn]
      simp only [this]
      exact WalkSpec.refl_nil zp w _ (by simp) _ [.readDir path]
        (by simp [Event.isWalkOp]) _ rfl rfl rfl
    | none =>
      exact WalkSpec.after_readDir zp path _ w _
        (walkEntries_zip env zp entries path (w.emit (.readDir path)))
/-- The walk of the entries of a directory by `saveAsZipFolder`. -/
theorem walkEntries_zip (env : Env) (zp : GoString) :
    ∀ (entries : List (GoString × Node)) (path : GoString) (w : World),
      WalkSpec zp (filesUnder.listed entries) w
        (walkDir.walkEntries env (zipWalkFn env zp) path entries w)
  | [], path, w => by
    simp only [walkDir.walkEntries, filesUnder.listed]
    exact ⟨rfl, fun _ _ => rfl, [], [], by simp, by simp,
      by cases w.archives zp <;> simp, fun _ => by simp⟩
  | (n, x) :: rest, path, w => by
    have h1 := walkDir_zip env zp x (filepathJoin [path, n]) n w
    simp only [walkDir.walkEntries, filesUnder.listed]
    generalize walkDir env (zipWalkFn env zp) (filepathJoin [path, n]) n x w = r1 at h1
    obtain ⟨e1, w1⟩ := r1
    cases e1 with
    | some err => exact WalkSpec.fail zp _ _ w w1 err h1
    | none => exact WalkSpec.comp zp _ _ w w1 _ h1 (walkEntries_zip env zp rest path w1)
end

/-! ## `saveAsZipFolder` -/

/-- What `saveAsZipFolder` returns: the error of `os.Create` if it fails, and otherwise the
result of the walk, whatever the two deferred closes return. -/
theorem saveAsZipFolder_result (env : Env) (cfg : Config) (chapterFolder : GoString) (w : World) :
    (saveAsZipFolder env cfg chapterFolder w).1 =
      match env.create w (chapterFolder ++ '.' :: cfg.ZipType) with
      | some err => some err
      | none =>
        (filepathWalkDir env chapterFolder (zipWalkFn env (chapterFolder ++ '.' :: cfg.ZipType))
          (osCreate env w (chapterFolder ++ '.' :: cfg.ZipType)).2).1 := by
  cases hc : env.create w (chapterFolder ++ '.' :: cfg.ZipType) with
  | some err => simp [saveAsZipFolder, osCreate, hc]
  | none => simp [saveAsZipFolder, osCreate, hc]

/-- The walk started by `filepath.WalkDir` on a directory of the world. -/
theorem filepathWalkDir_zip (env : Env) (zp root : GoString) (w : World)
    (entries : List (GoString × Node)) (hdir : w.dirs root = some entries) :
    WalkSpec zp (filesUnder.listed entries) (w.emit (.lstat root))
      (filepathWalkDir env root (zipWalkFn env zp) w) := by
  cases hl : env.lstat w root with
  | some err =>
    have : filepathWalkDir env root (zipWalkFn env zp) w = (some err, w.emit (.lstat root)) := by
      simp [filepathWalkDir, hl, zipWalkFn]
    rw [this]
    exact WalkSpec.refl_nil zp _ _ (by simp) _ [] (by simp) _ rfl rfl (by simp)
  | none =>
    have : filepathWalkDir env root (zipWalkFn env zp) w =
        walkDir env (zipWalkFn env zp) root (filepathBase root) (.dir entries)
          (w.emit (.lstat root)) := by
      simp [filepathWalkDir, hl, hdir]
    rw [this]
    exact walkDir_zip env zp (.dir entries) root (filepathBase root) (w.emit (.lstat root))

/-- The walk started by `filepath.WalkDir`, on any root: directories untouched, walk events
only. -/
theorem filepathWalkDir_frame (env : Env) (zp root : GoString) (w : World) :
    (filepathWalkDir env root (zipWalkFn env zp) w).2.dirs = w.dirs ∧
    ∃ evs, (filepathWalkDir env root (zipWalkFn env zp) w).2.log =
        w.log ++ .lstat root :: evs ∧ ∀ e ∈ evs, e.isWalkOp = true := by
  cases hd : w.dirs root with
  | some entries =>
    obtain ⟨h1, -, evs, -, h3, h4, -, -⟩ := filepathWalkDir_zip env zp root w entries hd
    exact ⟨h1, evs, by simpa using h3, h4⟩
  | none =>
    have : filepathWalkDir env root (zipWalkFn env zp) w =
        (some ((env.lstat w root).getD errNotExist), w.emit (.lstat root)) := by
      cases hl : env.lstat w root <;> simp [filepathWalkDir, hl, hd, zipWalkFn]
    rw [this]
    exact ⟨rfl, [], by simp, by simp⟩

theorem isArchiveOp_spec (e : Event) (h : e.isArchiveOp = true) :
    e.isChapterOp = true ∧ e.isRemoveAll = false := by
  cases e <;> simp_all [Event.isArchiveOp, Event.isWalkOp, Event.isChapterOp, Event.isRemoveAll]

/-- The frame of `saveAsZipFolder`: it leaves every directory as it was, and its events are
the creation of the archive, the walk and the two closes. -/
theorem saveAsZipFolder_frame (env : Env) (cfg : Config) (chapterFolder : GoString) (w : World) :
    (saveAsZipFolder env cfg chapterFolder w).2.dirs = w.dirs ∧
    Extends Event.isArchiveOp w (saveAsZipFolder env cfg chapterFolder w).2 := by
  have hP : ∀ e : Event, e.isWalkOp = true → e.isArchiveOp = true := by
    intro e he
    cases e <;> simp_all [Event.isWalkOp, Event.isArchiveOp]
  cases hc : env.create w (chapterFolder ++ '.' :: cfg.ZipType) with
  | some err =>
    have : saveAsZipFolder env cfg chapterFolder w =
        (some err, w.emit (.create (chapterFolder ++ '.' :: cfg.ZipType))) := by
      simp [saveAsZipFolder, osCreate, hc]
    rw [this]
    exact ⟨rfl, [_], rfl, by simp [Event.isArchiveOp, Event.isWalkOp]⟩
  | none =>
    generalize hw1 : (osCreate env w (chapterFolder ++ '.' :: cfg.ZipType)).2 = w1
    have hw1d : w1.dirs = w.dirs := by rw [← hw1]; simp [osCreate, hc]
    have hw1l : w1.log = w.log ++ [.create (chapterFolder ++ '.' :: cfg.ZipType)] := by
      rw [← hw1]; simp [osCreate, hc]
    obtain ⟨hd, evs, hl, he⟩ :=
      filepathWalkDir_frame env (chapterFolder ++ '.' :: cfg.ZipType) chapterFolder w1
    have h2 : (saveAsZipFolder env cfg chapterFolder w).2 =
        (closeFile env (zipClose env (filepathWalkDir env chapterFolder
          (zipWalkFn env (chapterFolder ++ '.' :: cfg.ZipType)) w1).2
            (chapterFolder ++ '.' :: cfg.ZipType)).2 (chapterFolder ++ '.' :: cfg.ZipType)).2 := by
      rw [← hw1]; simp [saveAsZipFolder, osCreate, hc]
    rw [h2]
    constructor
    · simp only [closeFile, emit_dirs, zipClose]
      split <;> simp [hd, hw1d]
    · refine ⟨[.create (chapterFolder ++ '.' :: cfg.ZipType), .lstat chapterFolder] ++ evs ++
        [.zipClose (chapterFolder ++ '.' :: cfg.ZipType),
         .closeFile (chapterFolder ++ '.' :: cfg.ZipType)], ?_, ?_⟩
      · simp only [closeFile, emit_log, zipClose]
        split <;> simp [hl, hw1l]
      · intro e hmem
        simp only [List.mem_append, List.mem_cons, List.mem_singleton, List.not_mem_nil,
          or_false] at hmem
        rcases hmem with ((h | h) | h) | (h | h)
        · subst h; simp [Event.isArchiveOp, Event.isWalkOp]
        · subst h; simp [Event.isArchiveOp, Event.isWalkOp]
        · exact hP e (he e h)
        · subst h; simp [Event.isArchiveOp, Event.isWalkOp]
        · subst h; simp [Event.isArchiveOp, Event.isWalkOp]

theorem zipWalkFn_file_ok (env : Env) (zp path name : GoString) (data : Bytes) (w : World)
    (hopen : ∀ w1 q, env.openFile w1 q = none)
    (hheader : ∀ w1 fh, env.createHeader w1 fh = none)
    (hcopy : ∀ w1 n, env.copy w1 n = none) :
    (zipWalkFn env zp path (some ⟨name, .file data⟩) none w).1 = none := by
  simp [zipWalkFn, DirEntry.IsDir, osOpen, hopen, zipCreateHeader, hheader, ioCopy, hcopy]

mutual
/-- If no operation of the walk fails, the walk of a node returns `nil`. -/
theorem walkDir_zip_ok (env : Env) (zp : GoString)
    (hread : ∀ w1 q, env.readDir w1 q = none)
    (hopen : ∀ w1 q, env.openFile w1 q = none)
    (hheader : ∀ w1 fh, env.createHeader w1 fh = none)
    (hcopy : ∀ w1 n, env.copy w1 n = none) :
    ∀ (node : Node) (path name : GoString) (w : World),
      (walkDir env (zipWalkFn env zp) path name node w).1 = none
  | .file data, path, name, w => by
    simp only [walkDir]
    exact zipWalkFn_file_ok env zp path name data w hopen hheader hcopy
  | .dir entries, path, name, w => by
    have hfn : zipWalkFn env zp path (some ⟨name, .dir entries⟩) none w = (none, w) := by
      simp [zipWalkFn, DirEntry.IsDir]
    simp only [walkDir, hfn, hread]
    exact walkEntries_zip_ok env zp hread hopen hheader hcopy entries path _
/-- If no operation of the walk fails, the walk of a listing returns `nil`. -/
theorem walkEntries_zip_ok (env : Env) (zp : GoString)
    (hread : ∀ w1 q, env.readDir w1 q = none)
    (hopen : ∀ w1 q, env.openFile w1 q = none)
    (hheader : ∀ w1 fh, env.createHeader w1 fh = none)
    (hcopy : ∀ w1 n, env.copy w1 n = none) :
    ∀ (entries : List (GoString × Node)) (path : GoString) (w : World),
      (walkDir.walkEntries env (zipWalkFn env zp) path entries w).1 = none
  | [], path, w => by simp [walkDir.walkEntries]
  | (n, x) :: rest, path, w => by
    have h1 := walkDir_zip_ok env zp hread hopen hheader hcopy x (filepathJoin [path, n]) n w
    simp only [walkDir.walkEntries]
    generalize walkDir env (zipWalkFn env zp) (filepathJoin [path, n]) n x w = r1 at h1
    obtain ⟨e1, w1⟩ := r1
    simp only at h1
    subst h1
    exact walkEntries_zip_ok env zp hread hopen hheader hcopy rest path w1
end

/-- C9: for a source directory of the world, (1) if no operation fails, `saveAsZipFolder`
returns `nil`; (2) whenever it returns `nil`, the archive at `chapterFolder + "." + ZipType`
holds exactly one entry per file at or below the directory, in walk order, each named by the
base name of the file (the name of its directory entry, not its path), with method Deflate
and exactly the bytes of the file, and `CreateHeader` was called exactly for those files;
directories, the source directory included, give no entry. -/
theorem saveAsZipFolder_entries (env : Env) (cfg : Config) (chapterFolder : GoString) (w : World)
    (entries : List (GoString × Node)) (hdir : w.dirs chapterFolder = some entries) :
    ((∀ w1 q, env.create w1 q = none) → (∀ w1 q, env.lstat w1 q = none) →
      (∀ w1 q, env.readDir w1 q = none) → (∀ w1 q, env.openFile w1 q = none) →
      (∀ w1 fh, env.createHeader w1 fh = none) → (∀ w1 n, env.copy w1 n = none) →
      (saveAsZipFolder env cfg chapterFolder w).1 = none) ∧
    ((saveAsZipFolder env cfg chapterFolder w).1 = none →
      ∃ a : Archive,
        (saveAsZipFolder env cfg chapterFolder w).2.archives
          (chapterFolder ++ '.' :: cfg.ZipType) = some a ∧
        a.entries.length = (filesUnder.listed entries).length ∧
        a.entries.map (fun e => (e.header.Name, e.header.Method, e.data)) =
          (filesUnder.listed entries).map (fun f => (f.1, Deflate, f.2)) ∧
        ((saveAsZipFolder env cfg chapterFolder w).2.log.drop w.log.length).filterMap
          Event.headerName = (filesUnder.listed entries).map Prod.fst) := by
  constructor
  · intro hcreate hlstat hread hopen hheader hcopy
    rw [saveAsZipFolder_result, hcreate]
    simp only [filepathWalkDir, hlstat, osCreate, hcreate, emit_dirs, hdir]
    exact walkDir_zip_ok env _ hread hopen hheader hcopy _ _ _ _
  · intro hok
    cases hc : env.create w (chapterFolder ++ '.' :: cfg.ZipType) with
    | some err => rw [saveAsZipFolder_result, hc] at hok; cases hok
    | none =>
      rw [saveAsZipFolder_result, hc] at hok
      simp only at hok
      generalize hw1 : (osCreate env w (chapterFolder ++ '.' :: cfg.ZipType)).2 = w1 at hok
      have hw1d : w1.dirs = w.dirs := by rw [← hw1]; simp [osCreate, hc]
      have hw1l : w1.log = w.log ++ [.create (chapterFolder ++ '.' :: cfg.ZipType)] := by
        rw [← hw1]; simp [osCreate, hc]
      have hw1a : w1.archives (chapterFolder ++ '.' :: cfg.ZipType) = some ⟨[], false⟩ := by
        rw [← hw1]; simp [osCreate, hc]
      obtain ⟨-, -, evs, ents, hl, -, ha, hs⟩ :=
        filepathWalkDir_zip env (chapterFolder ++ '.' :: cfg.ZipType) chapterFolder w1 entries
          (by rw [hw1d]; exact hdir)
      obtain ⟨hs1, hs2⟩ := hs hok
      have h2 : (saveAsZipFolder env cfg chapterFolder w).2 =
          (closeFile env (zipClose env (filepathWalkDir env chapterFolder
            (zipWalkFn env (chapterFolder ++ '.' :: cfg.ZipType)) w1).2
              (chapterFolder ++ '.' :: cfg.ZipType)).2
                (chapterFolder ++ '.' :: cfg.ZipType)).2 := by
        rw [← hw1]; simp [saveAsZipFolder, osCreate, hc]
      simp only [emit_archives, hw1a, Option.map_some', List.nil_append] at ha
      have hlen : ents.length = (filesUnder.listed entries).length := by
        have := congrArg List.length hs1
        simpa using this
      have hlog : (saveAsZipFolder env cfg chapterFolder w).2.log = w.log ++
          ([.create (chapterFolder ++ '.' :: cfg.ZipType), .lstat chapterFolder] ++ evs ++
          [.zipClose (chapterFolder ++ '.' :: cfg.ZipType),
           .closeFile (chapterFolder ++ '.' :: cfg.ZipType)]) := by
        rw [h2]
        simp only [closeFile, emit_log, zipClose]
        split <;> simp [hl, hw1l]
      rw [hlog, List.drop_left]
      cases hz : env.zipClose (filepathWalkDir env chapterFolder
          (zipWalkFn env (chapterFolder ++ '.' :: cfg.ZipType)) w1).2
            (chapterFolder ++ '.' :: cfg.ZipType) with
      | some err =>
        refine ⟨⟨ents, false⟩, ?_, hlen, hs1, ?_⟩
        · rw [h2]; simp [closeFile, zipClose, hz, ha]
        · simp [List.filterMap_append, Event.headerName, hs2]
      | none =>
        refine ⟨⟨ents, true⟩, ?_, hlen, hs1, ?_⟩
        · rw [h2]; simp [closeFile, zipClose, hz, ha]
        · simp [List.filterMap_append, Event.headerName, hs2]

/-- C10: the value returned by `saveAsZipFolder` is the error of `os.Create` or else exactly
the result of the walk; the errors of `w.Close()` and of closing the archive file are
dropped.  So there is an execution (two pages, archiving on) in which every step of the walk
succeeds and both closes fail, the archive is left not finalised, and yet `saveAsZipFolder`
returns `nil` and `saveChapter` removes the raw page directory and returns `nil`. -/
theorem saveAsZipFolder_drops_close_errors :
    (∀ (env : Env) (cfg : Config) (chapterFolder : GoString) (w : World),
      (saveAsZipFolder env cfg chapterFolder w).1 =
        match env.create w (chapterFolder ++ '.' :: cfg.ZipType) with
        | some err => some err
        | none =>
          (filepathWalkDir env chapterFolder
            (zipWalkFn env (chapterFolder ++ '.' :: cfg.ZipType))
            (osCreate env w (chapterFolder ++ '.' :: cfg.ZipType)).2).1) ∧
    ∃ (env : Env) (cfg : Config) (p : MangaPage) (chapter : Chapter) (w : World),
      cfg.AsZip = true ∧
      (∀ w1 path, env.zipClose w1 path ≠ none) ∧
      (∀ w1 path, env.closeFile w1 path ≠ none) ∧
      (saveAsZipFolder env cfg (getDownloadFolder env.upper cfg p chapter)
        (savePagesOf env cfg p chapter w).2).1 = none ∧
      (saveChapter env cfg p chapter w).1 = none ∧
      (saveChapter env cfg p chapter w).2.dirs (getDownloadFolder env.upper cfg p chapter)
        = none ∧
      Event.removeAll (getDownloadFolder env.upper cfg p chapter) ∈
        (saveChapter env cfg p chapter w).2.log ∧
      ((saveChapter env cfg p chapter w).2.archives
        (getDownloadFolder env.upper cfg p chapter ++ '.' :: cfg.ZipType)).map
          (fun a => (a.finalised, a.entries.map (fun e => (e.header.Name, e.data)))) =
        some (false, [("0001.png".toList, [6]), ("0002.jpg".toList, [6])]) := by
  refine ⟨saveAsZipFolder_result, closeFailEnv, zipConfig, soloPage, chapterOne, emptyWorld,
    rfl, ?_, ?_, ?_, ?_, ?_, ?_, ?_⟩
  · intro w1 path h; cases h
  · intro w1 path h; cases h
  · decide
  · decide
  · rfl
  · decide
  · decide

/-! ## The frame of `saveChapter` -/

theorem Extends.refl (P : Event → Bool) (w : World) : Extends P w w :=
  ⟨[], by simp, by simp⟩

theorem Extends.trans {P : Event → Bool} {w w1 w2 : World} (h1 : Extends P w w1)
    (h2 : Extends P w1 w2) : Extends P w w2 := by
  obtain ⟨e1, hl1, hp1⟩ := h1
  obtain ⟨e2, hl2, hp2⟩ := h2
  refine ⟨e1 ++ e2, by rw [hl2, hl1, List.append_assoc], ?_⟩
  intro e he
  rcases List.mem_append.mp he with h | h
  · exact hp1 e h
  · exact hp2 e h

theorem Extends.mono {P Q : Event → Bool} {w w1 : World} (h : Extends P w w1)
    (hPQ : ∀ e, P e = true → Q e = true) : Extends Q w w1 := by
  obtain ⟨e1, hl1, hp1⟩ := h
  exact ⟨e1, hl1, fun e he => hPQ e (hp1 e he)⟩

theorem Extends.emit (P : Event → Bool) (w : World) (e : Event) (h : P e = true) :
    Extends P w (w.emit e) :=
  ⟨[e], rfl, by simpa using h⟩

theorem Extends.of_log (P : Event → Bool) (w w1 : World) (e : Event) (h : P e = true)
    (hl : w1.log = w.log ++ [e]) : Extends P w w1 :=
  ⟨[e], hl, by simpa using h⟩

theorem Extends.not_mem {P : Event → Bool} {w w1 : World} (h : Extends P w w1) (e : Event)
    (he : P e = false) : e ∉ w1.log.drop w.log.length := by
  obtain ⟨evs, hl, hp⟩ := h
  rw [hl, List.drop_left]
  intro hmem
  rw [hp e hmem] at he
  cases he

theorem osWriteFile_extends (env : Env) (w : World) (dir name : GoString) (data : Bytes) :
    Extends Event.isPageOp w (osWriteFile env w dir name data).2 := by
  refine Extends.of_log _ _ _ (.writeFile (filepathJoin [dir, name]) data) rfl ?_
  simp only [osWriteFile]
  split
  · rfl
  · split <;> rfl

theorem osMkdirAll_extends (env : Env) (w : World) (path : GoString) :
    Extends Event.isPageOp w (osMkdirAll env w path).2 := by
  refine Extends.of_log _ _ _ (.mkdirAll path) rfl ?_
  simp only [osMkdirAll]
  split
  · rfl
  · split <;> rfl

theorem savePages_extends (env : Env) (folder : GoString) :
    ∀ (pages : List GoString) (num : Nat) (w : World),
      Extends Event.isPageOp w (savePages env folder num pages w).2 := by
  intro pages
  induction pages with
  | nil => intro num w; exact Extends.refl _ _
  | cons page rest ih =>
    intro num w
    cases hf : env.getChapterPage w page with
    | error err =>
      rw [savePages_cons_error env folder num page rest w err hf]
      exact Extends.emit _ _ _ rfl
    | ok image =>
      have h1 : Extends Event.isPageOp w (w.emit (.fetched page image)) :=
        Extends.emit _ _ _ rfl
      have h2 := osWriteFile_extends env (w.emit (.fetched page image)) folder
        (sprintf04d (num + 1) ++ filepathExt page) image
      simp only [savePages, getChapterPage, hf]
      generalize osWriteFile env (w.emit (.fetched page image)) folder
        (sprintf04d (num + 1) ++ filepathExt page) image = r at h2
      obtain ⟨e, w2⟩ := r
      cases e with
      | some err => exact h1.trans h2
      | none => exact (h1.trans h2).trans (ih _ _)

theorem savePagesOf_extends (env : Env) (cfg : Config) (p : MangaPage) (chapter : Chapter)
    (w : World) : Extends Event.isPageOp w (savePagesOf env cfg p chapter w).2 := by
  have h1 : Extends Event.isPageOp w
      (w.emit (.newMDHomeClient chapter.ID cfg.DownloadQuality cfg.ForcePort443)) :=
    Extends.emit _ _ _ rfl
  cases hc : env.newMDHomeClient w chapter cfg.DownloadQuality cfg.ForcePort443 with
  | some err => simpa [savePagesOf, newMDHomeClient, hc] using h1
  | none =>
    have h2 := osMkdirAll_extends env
      (w.emit (.newMDHomeClient chapter.ID cfg.DownloadQuality cfg.ForcePort443))
      (getDownloadFolder env.upper cfg p chapter)
    simp only [savePagesOf, newMDHomeClient, hc]
    generalize osMkdirAll env
      (w.emit (.newMDHomeClient chapter.ID cfg.DownloadQuality cfg.ForcePort443))
      (getDownloadFolder env.upper cfg p chapter) = r at h2
    obtain ⟨e, w2⟩ := r
    cases e with
    | some err => exact h1.trans h2
    | none => exact (h1.trans h2).trans (savePages_extends env _ _ _ _)

theorem isPageOp_spec (e : Event) (h : e.isPageOp = true) :
    e.isChapterOp = true ∧ e.isRemoveAll = false := by
  cases e <;> simp_all [Event.isPageOp, Event.isChapterOp, Event.isRemoveAll]

/-- Every event of `saveChapter` is an operation on the network or the file system: none is
an event of `downloadChapters`. -/
theorem saveChapter_extends (env : Env) (cfg : Config) (p : MangaPage) (chapter : Chapter)
    (w : World) : Extends Event.isChapterOp w (saveChapter env cfg p chapter w).2 := by
  have h1 := (savePagesOf_extends env cfg p chapter w).mono (fun e h => (isPageOp_spec e h).1)
  simp only [saveChapter]
  generalize savePagesOf env cfg p chapter w = r at h1
  obtain ⟨e, w3⟩ := r
  cases e with
  | some err => exact h1
  | none =>
    by_cases hz : cfg.AsZip = true
    · have h2 := ((saveAsZipFolder_frame env cfg
        (getDownloadFolder env.upper cfg p chapter) w3).2).mono
          (fun e h => (isArchiveOp_spec e h).1)
      simp only [hz, if_true]
      generalize saveAsZipFolder env cfg (getDownloadFolder env.upper cfg p chapter) w3 = r2
        at h2
      obtain ⟨e2, w4⟩ := r2
      cases e2 with
      | some err => exact h1.trans h2
      | none =>
        have h3 : Extends Event.isChapterOp w4
            (osRemoveAll env w4 (getDownloadFolder env.upper cfg p chapter)).2 := by
          refine Extends.of_log _ _ _
            (.removeAll (getDownloadFolder env.upper cfg p chapter)) rfl ?_
          simp only [osRemoveAll]
          split <;> rfl
        simp only
        generalize osRemoveAll env w4 (getDownloadFolder env.upper cfg p chapter) = r3 at h3
        obtain ⟨e3, w5⟩ := r3
        cases e3 <;> exact (h1.trans h2).trans h3
    · simpa [hz] using h1

/-- C8: with archiving on and all pages written (the first part of `saveChapter` returned
`nil`, leaving the world `w3`):
(1) if `saveAsZipFolder` fails, `saveChapter` returns that error, every directory is as the
page loop left it, and `os.RemoveAll` is never invoked;
(2) if it succeeds and the removal succeeds, `saveChapter` returns `nil` and the raw page
directory no longer exists;
(3) if it succeeds and the removal fails, `saveChapter` returns the removal error;
(4) `saveAsZipFolder` fails with the error of `os.Create`, and otherwise with the error of
the walk; the walk function returns an incoming walk error, and the error of `os.Open`, of
`CreateHeader` and of `io.Copy` on a file. -/
theorem saveChapter_archive_phase (env : Env) (cfg : Config) (p : MangaPage) (chapter : Chapter)
    (w w3 : World) (folder zipPath : GoString)
    (hfolder : folder = getDownloadFolder env.upper cfg p chapter)
    (hzipPath : zipPath = folder ++ '.' :: cfg.ZipType)
    (hzip : cfg.AsZip = true)
    (hpages : savePagesOf env cfg p chapter w = (none, w3)) :
    (∀ err, (saveAsZipFolder env cfg folder w3).1 = some err →
      (saveChapter env cfg p chapter w).1 = some err ∧
      (saveChapter env cfg p chapter w).2.dirs = w3.dirs ∧
      ∀ path, Event.removeAll path ∉ (saveChapter env cfg p chapter w).2.log.drop w.log.length) ∧
    ((saveAsZipFolder env cfg folder w3).1 = none →
      env.removeAll (saveAsZipFolder env cfg folder w3).2 folder = none →
      (saveChapter env cfg p chapter w).1 = none ∧
      (saveChapter env cfg p chapter w).2.dirs folder = none) ∧
    (∀ err, (saveAsZipFolder env cfg folder w3).1 = none →
      env.removeAll (saveAsZipFolder env cfg folder w3).2 folder = some err →
      (saveChapter env cfg p chapter w).1 = some err) ∧
    (∀ err, env.create w3 zipPath = some err →
      (saveAsZipFolder env cfg folder w3).1 = some err) ∧
    (∀ err, env.create w3 zipPath = none →
      (filepathWalkDir env folder (zipWalkFn env zipPath) (osCreate env w3 zipPath).2).1
        = some err →
      (saveAsZipFolder env cfg folder w3).1 = some err) ∧
    (∀ path d err w1, (zipWalkFn env zipPath path d (some err) w1).1 = some err) ∧
    (∀ path name data err w1, env.openFile w1 path = some err →
      (zipWalkFn env zipPath path (some ⟨name, .file data⟩) none w1).1 = some err) ∧
    (∀ path name data err w1, env.openFile w1 path = none →
      env.createHeader (w1.emit (.openFile path))
        ⟨name, env.now (w1.emit (.openFile path)), Deflate⟩ = some err →
      (zipWalkFn env zipPath path (some ⟨name, .file data⟩) none w1).1 = some err) ∧
    (∀ path name data err w1, env.openFile w1 path = none →
      env.createHeader (w1.emit (.openFile path))
        ⟨name, env.now (w1.emit (.openFile path)), Deflate⟩ = none →
      env.copy (zipCreateHeader env (w1.emit (.openFile path)) zipPath
        ⟨name, env.now (w1.emit (.openFile path)), Deflate⟩).2 name = some err →
      (zipWalkFn env zipPath path (some ⟨name, .file data⟩) none w1).1 = some err) := by
  subst hzipPath
  have hpre := savePagesOf_extends env cfg p chapter w
  rw [hpages] at hpre
  have hframe := saveAsZipFolder_frame env cfg folder w3
  refine ⟨?_, ?_, ?_, ?_, ?_, ?_, ?_, ?_, ?_⟩
  · intro err hfail
    have hsave : saveChapter env cfg p chapter w =
        (some err, (saveAsZipFolder env cfg folder w3).2) := by
      simp only [saveChapter, hpages, ← hfolder, hzip, if_true]
      rw [show saveAsZipFolder env cfg folder w3 =
        (some err, (saveAsZipFolder env cfg folder w3).2) from Prod.ext hfail rfl]
    rw [hsave]
    refine ⟨rfl, hframe.1, fun path => ?_⟩
    have hall : Extends (fun e => !e.isRemoveAll) w (saveAsZipFolder env cfg folder w3).2 :=
      (hpre.mono (fun e h => by simp [(isPageOp_spec e h).2])).trans
        (hframe.2.mono (fun e h => by simp [(isArchiveOp_spec e h).2]))
    exact hall.not_mem _ (by simp [Event.isRemoveAll])
  · intro hok hrm
    have hsave : saveChapter env cfg p chapter w =
        osRemoveAll env (saveAsZipFolder env cfg folder w3).2 folder := by
      simp only [saveChapter, hpages, ← hfolder, hzip, if_true]
      rw [show saveAsZipFolder env cfg folder w3 =
        (none, (saveAsZipFolder env cfg folder w3).2) from Prod.ext hok rfl]
      simp only [osRemoveAll, hrm]
    rw [hsave]
    simp [osRemoveAll, hrm]
  · intro err hok hrm
    have hsave : saveChapter env cfg p chapter w =
        osRemoveAll env (saveAsZipFolder env cfg folder w3).2 folder := by
      simp only [saveChapter, hpages, ← hfolder, hzip, if_true]
      rw [show saveAsZipFolder env cfg folder w3 =
        (none, (saveAsZipFolder env cfg folder w3).2) from Prod.ext hok rfl]
      simp only [osRemoveAll, hrm]
    rw [hsave]
    simp [osRemoveAll, hrm]
  · intro err hc
    rw [saveAsZipFolder_result, hc]
  · intro err hc hwalk
    rw [saveAsZipFolder_result, hc]
    exact hwalk
  · intro path d err w1
    simp [zipWalkFn]
  · intro path name data err w1 ho
    simp [zipWalkFn, DirEntry.IsDir, osOpen, ho]
  · intro path name data err w1 ho hc
    simp [zipWalkFn, DirEntry.IsDir, osOpen, ho, zipCreateHeader, hc]
  · intro path name data err w1 ho hc hy
    generalize hw2 : (zipCreateHeader env (w1.emit (.openFile path)) (folder ++ '.' :: cfg.ZipType)
      ⟨name, env.now (w1.emit (.openFile path)), Deflate⟩).2 = w2 at hy
    have hz : zipCreateHeader env (w1.emit (.openFile path)) (folder ++ '.' :: cfg.ZipType)
        ⟨name, env.now (w1.emit (.openFile path)), Deflate⟩ = (none, w2) := by
      rw [← hw2]; simp [zipCreateHeader, hc]
    simp [zipWalkFn, DirEntry.IsDir, osOpen, ho, hz, ioCopy, hy]

/-! ## `downloadChapters` -/

theorem isChapterOp_projections (e : Event) (h : e.isChapterOp = true) :
    e.calledRow = none ∧ e.returned = none ∧ e.statusUpdate = none ∧ e.modalText = none := by
  cases e <;> simp_all [Event.isChapterOp, Event.calledRow, Event.returned,
    Event.statusUpdate, Event.modalText]

theorem filterMap_none {α : Type} (f : Event → Option α) (evs : List Event)
    (h : ∀ e ∈ evs, f e = none) : evs.filterMap f = [] := by
  induction evs with
  | nil => rfl
  | cons e rest ih =>
    rw [List.filterMap_cons, h e (List.mem_cons_self _ _)]
    exact ih (fun x hx => h x (List.mem_cons_of_mem _ hx))

/-- The download loop: one call of `saveChapter` per row, in order, whatever the calls
return; a `Y` status update for exactly the rows whose call returned `nil`; the flag is set
exactly when a call returned an error. -/
theorem downloadLoop_spec (env : Env) (cfg : Config) (p : MangaPage) :
    ∀ (order : List Int) (errored : Bool) (w : World),
      ∃ (results : List (Option GoError)) (evs : List Event),
        LoopSpec env cfg p order errored w (downloadLoop env cfg p order errored w) results evs := by
  intro order
  induction order with
  | nil =>
    intro errored w
    exact ⟨[], [], by simp [LoopSpec, downloadLoop]⟩
  | cons index rest ih =>
    intro errored w
    have hx := saveChapter_extends env cfg p (p.Table index) (w.emit (.saveChapterCalled index))
    have hres : ∃ w0, (saveChapter env cfg p (p.Table index) w0).1 =
        (saveChapter env cfg p (p.Table index) (w.emit (.saveChapterCalled index))).1 :=
      ⟨_, rfl⟩
    rcases hsc : saveChapter env cfg p (p.Table index) (w.emit (.saveChapterCalled index))
      with ⟨res, w1⟩
    rw [hsc] at hx hres
    obtain ⟨cevs, hcl, hcp⟩ := hx
    have hc1 := filterMap_none Event.calledRow cevs
      (fun e he => (isChapterOp_projections e (hcp e he)).1)
    have hc2 := filterMap_none Event.returned cevs
      (fun e he => (isChapterOp_projections e (hcp e he)).2.1)
    have hc3 := filterMap_none Event.statusUpdate cevs
      (fun e he => (isChapterOp_projections e (hcp e he)).2.2.1)
    have hc4 := filterMap_none Event.modalText cevs
      (fun e he => (isChapterOp_projections e (hcp e he)).2.2.2)
    simp only [emit_log] at hcl
    cases res with
    | some err =>
      obtain ⟨results, evs, h1, h2, h3, h4, h5, h6, h7, h8⟩ := ih true
        ((w1.emit (.saveChapterReturned index (some err))).emit
          (.logPrintln (errorMessage p (p.Table index) err)))
      refine ⟨some err :: results,
        [.saveChapterCalled index] ++ cevs ++ [.saveChapterReturned index (some err),
          .logPrintln (errorMessage p (p.Table index) err)] ++ evs, ?_⟩
      simp only [downloadLoop, hsc]
      refine ⟨by simp [h1], by simp [h2], by simp [h3, hcl], ?_, ?_, ?_, ?_, ?_⟩
      · simp [List.filterMap_append, hc1, h4, Event.calledRow]
      · simp [List.filterMap_append, hc2, h5, Event.returned]
      · simp [List.filterMap_append, hc3, h6, Event.statusUpdate]
      · simp [List.filterMap_append, hc4, h7, Event.modalText]
      · intro x hmem
        simp only [List.zip_cons_cons, List.mem_cons] at hmem
        rcases hmem with h | h
        · subst h; exact hres
        · exact h8 x h
    | none =>
      obtain ⟨results, evs, h1, h2, h3, h4, h5, h6, h7, h8⟩ := ih errored
        ((w1.emit (.saveChapterReturned index none)).emit
          (.queueUpdateDraw (.setCell index 2 ['Y'])))
      refine ⟨none :: results,
        [.saveChapterCalled index] ++ cevs ++ [.saveChapterReturned index none,
          .queueUpdateDraw (.setCell index 2 ['Y'])] ++ evs, ?_⟩
      simp only [downloadLoop, hsc]
      refine ⟨by simp [h1], by simp [h2], by simp [h3, hcl], ?_, ?_, ?_, ?_, ?_⟩
      · simp [List.filterMap_append, hc1, h4, Event.calledRow]
      · simp [List.filterMap_append, hc2, h5, Event.returned]
      · simp [List.filterMap_append, hc3, h6, Event.statusUpdate]
      · simp [List.filterMap_append, hc4, h7, Event.modalText]
      · intro x hmem
        simp only [List.zip_cons_cons, List.mem_cons] at hmem
        rcases hmem with h | h
        · subst h; exact hres
        · exact h8 x h

theorem unselect_log (order : List Int) :
    ∀ w : World, (order.foldl (fun w index => w.emit (.markChapterUnselected index)) w).log =
      w.log ++ order.map Event.markChapterUnselected := by
  induction order with
  | nil => intro w; simp
  | cons i rest ih => intro w; simp [List.foldl, ih]

theorem count_called (row : Int) (evs : List Event) :
    evs.count (.saveChapterCalled row) = (evs.filterMap Event.calledRow).count row := by
  induction evs with
  | nil => rfl
  | cons e rest ih =>
    cases e <;> simp [List.count_cons, Event.calledRow, List.filterMap_cons, ih]

theorem zip_functional {α β : Type} :
    ∀ (l : List α) (r : List β) (a : α) (b c : β), l.Nodup → (a, b) ∈ l.zip r →
      (a, c) ∈ l.zip r → b = c := by
  intro l
  induction l with
  | nil => intro r a b c _ h; simp at h
  | cons x rest ih =>
    intro r a b c hnd hb hc
    cases r with
    | nil => simp at hb
    | cons y ys =>
      simp only [List.zip_cons_cons, List.mem_cons, Prod.mk.injEq] at hb hc
      have hx : x ∉ rest := (List.nodup_cons.mp hnd).1
      rcases hb with ⟨h1, h2⟩ | hb
      · rcases hc with ⟨h3, h4⟩ | hc
        · rw [h2, h4]
        · exact absurd (h1 ▸ (List.of_mem_zip hc).1) hx
      · rcases hc with ⟨h3, h4⟩ | hc
        · exact absurd (h3 ▸ (List.of_mem_zip hb).1) hx
        · exact ih ys a b c (List.nodup_cons.mp hnd).2 hb hc

theorem exists_mem_zip {α β : Type} :
    ∀ (l : List α) (r : List β) (b : β), l.length = r.length → b ∈ r →
      ∃ a, (a, b) ∈ l.zip r := by
  intro l
  induction l with
  | nil =>
    intro r b hlen hb
    cases r with
    | nil => simp at hb
    | cons y ys => simp at hlen
  | cons x rest ih =>
    intro r b hlen hb
    cases r with
    | nil => simp at hb
    | cons y ys =>
      rcases List.mem_cons.mp hb with h | h
      · exact ⟨x, by simp [h]⟩
      · obtain ⟨a, ha⟩ := ih ys b (by simpa using hlen) h
        exact ⟨a, by simp [ha]⟩

/-- The events of `downloadChapters`: the selection markers cleared, the download loop, and
the final modal. -/
theorem downloadChapters_log (env : Env) (cfg : Config) (p : MangaPage)
    (order1 order2 : List Int) (w : World) :
    ∃ (results : List (Option GoError)) (evs : List Event),
      LoopSpec env cfg { p with Selected := [] } order2 false
        (order1.foldl (fun w index => w.emit (.markChapterUnselected index)) w)
        (downloadLoop env cfg { p with Selected := [] } order2 false
          (order1.foldl (fun w index => w.emit (.markChapterUnselected index)) w)) results evs ∧
      (downloadChapters env cfg p order1 order2 w).2.log =
        w.log ++ (order1.map Event.markChapterUnselected ++ evs) ++
          [.queueUpdateDraw (.showModal (finishedMessage (results.any Option.isSome)))] := by
  obtain ⟨results, evs, hspec⟩ := downloadLoop_spec env cfg { p with Selected := [] } order2 false
    (order1.foldl (fun w index => w.emit (.markChapterUnselected index)) w)
  refine ⟨results, evs, hspec, ?_⟩
  obtain ⟨-, h2, h3, -⟩ := hspec
  simp only [downloadChapters, emit_log, h3, h2, unselect_log, Bool.false_or, List.append_assoc]

theorem unselect_projections (order : List Int) :
    (order.map Event.markChapterUnselected).filterMap Event.calledRow = [] ∧
    (order.map Event.markChapterUnselected).filterMap Event.returned = [] ∧
    (order.map Event.markChapterUnselected).filterMap Event.statusUpdate = [] ∧
    (order.map Event.markChapterUnselected).filterMap Event.modalText = [] := by
  refine ⟨filterMap_none _ _ ?_, filterMap_none _ _ ?_, filterMap_none _ _ ?_,
    filterMap_none _ _ ?_⟩ <;>
  · intro e he
    obtain ⟨i, -, rfl⟩ := List.mem_map.mp he
    rfl

/-- C6: whatever each call returns, `downloadChapters` calls `saveChapter` exactly once for
each selected row (`range` yields each key of the selection once), in the order of the
range, and every call returns; the `Y` status update (column 2) is queued for exactly the
rows whose call returned `nil`, in that order, each for the row of the chapter that
succeeded; and no status update is queued for a row whose call returned an error. -/
theorem downloadChapters_attempts_every_row (env : Env) (cfg : Config) (p : MangaPage)
    (order1 order2 : List Int) (w : World)
    (hnodup : p.Selected.Nodup) (hperm : order2.Perm p.Selected) :
    ∃ (results : List (Option GoError)) (evs : List Event),
      results.length = order2.length ∧
      (downloadChapters env cfg p order1 order2 w).2.log = w.log ++ evs ∧
      evs.filterMap Event.calledRow = order2 ∧
      (∀ row, evs.count (.saveChapterCalled row) = if row ∈ p.Selected then 1 else 0) ∧
      evs.filterMap Event.returned = order2.zip results ∧
      (∀ x ∈ order2.zip results, ∃ w1,
        (saveChapter env cfg { p with Selected := [] } (p.Table x.1) w1).1 = x.2) ∧
      evs.filterMap Event.statusUpdate =
        ((order2.zip results).filter (fun x => x.2.isNone)).map (fun x => (x.1, 2, ['Y'])) ∧
      (∀ row err, (row, some err) ∈ order2.zip results →
        ∀ col text, Event.queueUpdateDraw (.setCell row col text) ∉ evs) := by
  obtain ⟨results, evs, ⟨h1, -, -, h4, h5, h6, -, h8⟩, hlog⟩ :=
    downloadChapters_log env cfg p order1 order2 w
  obtain ⟨u1, u2, u3, -⟩ := unselect_projections order1
  have hnd2 : order2.Nodup := hperm.nodup_iff.mpr hnodup
  have hcalled : (order1.map Event.markChapterUnselected ++ evs ++
      [Event.queueUpdateDraw (.showModal (finishedMessage (results.any Option.isSome)))]).filterMap
        Event.calledRow = order2 := by
    simp [List.filterMap_append, u1, h4, Event.calledRow]
  have hstatus : (order1.map Event.markChapterUnselected ++ evs ++
      [Event.queueUpdateDraw (.showModal (finishedMessage (results.any Option.isSome)))]).filterMap
        Event.statusUpdate =
        ((order2.zip results).filter (fun x => x.2.isNone)).map (fun x => (x.1, 2, ['Y'])) := by
    simp [List.filterMap_append, u3, h6, Event.statusUpdate]
  refine ⟨results, _, h1, by rw [hlog, List.append_assoc], hcalled, ?_, ?_, h8, hstatus, ?_⟩
  · intro row
    rw [count_called, hcalled, hperm.count_eq, List.count_eq_of_nodup hnodup]
  · simp [List.filterMap_append, u2, h5, Event.returned]
  · intro row err hfail col text hmem
    have hm : (row, col, text) ∈ (order1.map Event.markChapterUnselected ++ evs ++
        [Event.queueUpdateDraw (.showModal (finishedMessage (results.any Option.isSome)))]).filterMap
          Event.statusUpdate := List.mem_filterMap.mpr ⟨_, hmem, rfl⟩
    rw [hstatus] at hm
    obtain ⟨x, hx, hxe⟩ := List.mem_map.mp hm
    obtain ⟨hxz, hxn⟩ := List.mem_filter.mp hx
    obtain ⟨x1, x2⟩ := x
    simp only [Prod.mk.injEq] at hxe
    obtain ⟨hrow, -, -⟩ := hxe
    subst hrow
    have := zip_functional order2 results x1 x2 (some err) hnd2 hxz hfail
    subst this
    simp at hxn

/-- C7: for every selection, `downloadChapters` queues the final modal exactly once, as its
last event, after `saveChapter` has been called and has returned for every row; its text is
`"Last Download Queue finished.\n"` followed by the error line if and only if some call of
`saveChapter` returned an error, and by `"No errors :>"` otherwise. -/
theorem downloadChapters_final_report (env : Env) (cfg : Config) (p : MangaPage)
    (order1 order2 : List Int) (w : World) :
    ∃ (evs : List Event) (failed : Bool),
      (downloadChapters env cfg p order1 order2 w).2.log = w.log ++ evs ++
        [.queueUpdateDraw (.showModal ("Last Download Queue finished.\n".toList ++
          (if failed then "We encountered some errors! Check the log for more details.".toList
           else "No errors :>".toList)))] ∧
      (∀ text, Event.queueUpdateDraw (.showModal text) ∉ evs) ∧
      evs.filterMap Event.calledRow = order2 ∧
      (evs.filterMap Event.returned).map Prod.fst = order2 ∧
      (failed = true ↔ ∃ row err, Event.saveChapterReturned row (some err) ∈ evs) := by
  obtain ⟨results, evs, ⟨h1, -, -, h4, h5, -, h7, -⟩, hlog⟩ :=
    downloadChapters_log env cfg p order1 order2 w
  obtain ⟨u1, u2, -, u4⟩ := unselect_projections order1
  have hret : (order1.map Event.markChapterUnselected ++ evs).filterMap Event.returned =
      order2.zip results := by
    simp [List.filterMap_append, u2, h5]
  refine ⟨order1.map Event.markChapterUnselected ++ evs, results.any Option.isSome, ?_, ?_, ?_,
    ?_, ?_⟩
  · rw [hlog]
    have : finishedMessage (results.any Option.isSome) =
        "Last Download Queue finished.\n".toList ++
          (if results.any Option.isSome = true then
            "We encountered some errors! Check the log for more details.".toList
           else "No errors :>".toList) := by
      cases results.any Option.isSome <;> rfl
    rw [this]
  · intro text hmem
    have hm : text ∈ (order1.map Event.markChapterUnselected ++ evs).filterMap Event.modalText :=
      List.mem_filterMap.mpr ⟨_, hmem, rfl⟩
    simp [List.filterMap_append, u4, h7] at hm
  · simp [List.filterMap_append, u1, h4]
  · rw [hret]
    exact List.map_fst_zip _ _ (by omega)
  · constructor
    · intro hany
      obtain ⟨r, hr, hsome⟩ := List.any_eq_true.mp hany
      obtain ⟨err, rfl⟩ := Option.isSome_iff_exists.mp hsome
      obtain ⟨row, hrow⟩ := exists_mem_zip order2 results (some err) h1.symm hr
      rw [← hret] at hrow
      obtain ⟨e, he, hee⟩ := List.mem_filterMap.mp hrow
      refine ⟨row, err, ?_⟩
      cases e <;> simp [Event.returned] at hee
      obtain ⟨rfl, rfl⟩ := hee
      exact he
    · rintro ⟨row, err, hmem⟩
      have hm : (row, some err) ∈
          (order1.map Event.markChapterUnselected ++ evs).filterMap Event.returned :=
        List.mem_filterMap.mpr ⟨_, hmem, rfl⟩
      rw [hret] at hm
      exact List.any_eq_true.mpr ⟨some err, (List.of_mem_zip hm).2, rfl⟩

/-! ## The code at concrete inputs -/

/-- C2 fails on the code: with archiving on (`ZipType = "zip"`), `saveChapter` creates the
directory at the path `getDownloadFolder` returns, which already ends in `.zip`, writes the
pages into it, and `saveAsZipFolder` creates the archive at that path plus `.zip`; nothing
is ever stored at the plain chapter directory, and after the run neither a directory nor an
archive exists at the path `getDownloadFolder` returns. -/
theorem saveChapter_zip_paths :
    getDownloadFolder okEnv.upper zipConfig soloPage chapterOne =
      "downloads/Solo/Chapter1 [EN-data] Start_ab12.zip".toList ∧
    (saveChapter okEnv zipConfig soloPage chapterOne emptyWorld).1 = none ∧
    (saveChapter okEnv zipConfig soloPage chapterOne emptyWorld).2.log =
      [.newMDHomeClient "ab12-cd34".toList "data".toList false,
       .mkdirAll "downloads/Solo/Chapter1 [EN-data] Start_ab12.zip".toList,
       .fetched "x1.png".toList [6],
       .writeFile "downloads/Solo/Chapter1 [EN-data] Start_ab12.zip/0001.png".toList [6],
       .fetched "x2.jpg".toList [6],
       .writeFile "downloads/Solo/Chapter1 [EN-data] Start_ab12.zip/0002.jpg".toList [6],
       .create "downloads/Solo/Chapter1 [EN-data] Start_ab12.zip.zip".toList,
       .lstat "downloads/Solo/Chapter1 [EN-data] Start_ab12.zip".toList,
       .readDir "downloads/Solo/Chapter1 [EN-data] Start_ab12.zip".toList,
       .openFile "downloads/Solo/Chapter1 [EN-data] Start_ab12.zip/0001.png".toList,
       .createHeader ⟨"0001.png".toList, 10, Deflate⟩,
       .copy "0001.png".toList [6],
       .closeFile "downloads/Solo/Chapter1 [EN-data] Start_ab12.zip/0001.png".toList,
       .openFile "downloads/Solo/Chapter1 [EN-data] Start_ab12.zip/0002.jpg".toList,
       .createHeader ⟨"0002.jpg".toList, 14, Deflate⟩,
       .copy "0002.jpg".toList [6],
       .closeFile "downloads/Solo/Chapter1 [EN-data] Start_ab12.zip/0002.jpg".toList,
       .zipClose "downloads/Solo/Chapter1 [EN-data] Start_ab12.zip.zip".toList,
       .closeFile "downloads/Solo/Chapter1 [EN-data] Start_ab12.zip.zip".toList,
       .removeAll "downloads/Solo/Chapter1 [EN-data] Start_ab12.zip".toList] ∧
    ((saveChapter okEnv zipConfig soloPage chapterOne emptyWorld).2.archives
      "downloads/Solo/Chapter1 [EN-data] Start_ab12.zip.zip".toList).isSome = true ∧
    (saveChapter okEnv zipConfig soloPage chapterOne emptyWorld).2.archives
      (getDownloadFolder okEnv.upper zipConfig soloPage chapterOne) = none ∧
    (saveChapter okEnv zipConfig soloPage chapterOne emptyWorld).2.dirs
      (getDownloadFolder okEnv.upper zipConfig soloPage chapterOne) = none := by
  refine ⟨by decide, by decide, by decide, by decide, by decide, rfl⟩

/-- Witness for C4: two pages, nothing fails, archiving off, no directory beforehand. -/
theorem saveChapter_plain_success_witness :
    (∀ w1 page, page ∈ chapterOne.Data → ∃ image, okEnv.getChapterPage w1 page = .ok image) ∧
    emptyWorld.dirs (getDownloadFolder okEnv.upper plainConfig soloPage chapterOne) = none ∧
    ((saveChapter okEnv plainConfig soloPage chapterOne emptyWorld).1 = none ∧
     ∃ (images : List Bytes) (entries : List (GoString × Node)),
      images.length = chapterOne.Data.length ∧
      (saveChapter okEnv plainConfig soloPage chapterOne emptyWorld).2.dirs
        (getDownloadFolder okEnv.upper plainConfig soloPage chapterOne) = some entries ∧
      entries.length = chapterOne.Data.length ∧
      (∀ e, e ∈ entries ↔ ∃ i page image, chapterOne.Data[i]? = some page ∧
        images[i]? = some image ∧
        e = (sprintf04d (i + 1) ++ filepathExt page, Node.file image)) ∧
      (saveChapter okEnv plainConfig soloPage chapterOne emptyWorld).2.log =
        emptyWorld.log ++ [.newMDHomeClient chapterOne.ID plainConfig.DownloadQuality
          plainConfig.ForcePort443,
          .mkdirAll (getDownloadFolder okEnv.upper plainConfig soloPage chapterOne)] ++
          pageEvents (getDownloadFolder okEnv.upper plainConfig soloPage chapterOne) 0
            chapterOne.Data images) :=
  ⟨fun _ _ _ => ⟨_, rfl⟩, rfl,
    saveChapter_plain_success okEnv plainConfig soloPage chapterOne emptyWorld chapterOne.Data
      (getDownloadFolder okEnv.upper plainConfig soloPage chapterOne) (by decide) rfl rfl
      (Or.inl rfl) (fun _ => rfl) (fun _ => rfl) (fun _ _ _ => ⟨_, rfl⟩) (fun _ _ _ => rfl)⟩

/-- Witness for C5: two pages, the fetch of the second one fails (`k = 2`). -/
theorem saveChapter_fetch_failure_witness :
    chapterOne.Data[2 - 1]? = some "x2.jpg".toList ∧
    (saveChapter fetchFailEnv plainConfig soloPage chapterOne emptyWorld).1 =
      some ⟨"connection reset".toList⟩ ∧
    (saveChapter fetchFailEnv plainConfig soloPage chapterOne emptyWorld).2.log =
      [.newMDHomeClient "ab12-cd34".toList "data".toList false,
       .mkdirAll "downloads/Solo/Chapter1 [EN-data] Start_ab12".toList,
       .fetched "x1.png".toList [6],
       .writeFile "downloads/Solo/Chapter1 [EN-data] Start_ab12/0001.png".toList [6],
       .fetchFailed "x2.jpg".toList ⟨"connection reset".toList⟩] ∧
    (∀ path, Event.create path ∉
      (saveChapter fetchFailEnv plainConfig soloPage chapterOne emptyWorld).2.log.drop
        emptyWorld.log.length) ∧
    (∀ path, Event.removeAll path ∉
      (saveChapter fetchFailEnv plainConfig soloPage chapterOne emptyWorld).2.log.drop
        emptyWorld.log.length) := by
  have h := saveChapter_fetch_failure fetchFailEnv plainConfig soloPage chapterOne emptyWorld
    chapterOne.Data (getDownloadFolder fetchFailEnv.upper plainConfig soloPage chapterOne) 2
    "x2.jpg".toList ⟨"connection reset".toList⟩ (by decide) rfl (by decide) (by decide) rfl rfl
    (by decide) rfl
  obtain ⟨h1, images, -, -, -, h5, h6⟩ := h
  exact ⟨by decide, h1, by decide, h5, h6⟩

/-- Witness for C6: rows 1 and 2 selected, yielded as 2, 1; the chapter of row 1 fails on
its second page, the chapter of row 2 succeeds. -/
theorem downloadChapters_attempts_every_row_witness :
    soloPage.Selected.Nodup ∧ [2, 1].Perm soloPage.Selected ∧
    ∃ (results : List (Option GoError)) (evs : List Event),
      results.length = [2, 1].length ∧
      (downloadChapters fetchFailEnv plainConfig soloPage [1, 2] [2, 1] emptyWorld).2.log =
        emptyWorld.log ++ evs ∧
      evs.filterMap Event.calledRow = [2, 1] ∧
      (∀ row, evs.count (.saveChapterCalled row) = if row ∈ soloPage.Selected then 1 else 0) ∧
      evs.filterMap Event.returned = [2, 1].zip results ∧
      (∀ x ∈ [2, 1].zip results, ∃ w1,
        (saveChapter fetchFailEnv plainConfig { soloPage with Selected := [] }
          (soloPage.Table x.1) w1).1 = x.2) ∧
      evs.filterMap Event.statusUpdate =
        (([2, 1].zip results).filter (fun x => x.2.isNone)).map (fun x => (x.1, 2, ['Y'])) ∧
      (∀ row err, (row, some err) ∈ [2, 1].zip results →
        ∀ col text, Event.queueUpdateDraw (.setCell row col text) ∉ evs) :=
  ⟨by decide, by decide,
    downloadChapters_attempts_every_row fetchFailEnv plainConfig soloPage [1, 2] [2, 1]
      emptyWorld (by decide) (by decide)⟩

/-- Witness for C8: with archiving on and both pages written, the run in which nothing fails
returns `nil` and removes the directory, and the run in which `os.Open` fails during the walk
returns that error and leaves the directories as the page loop left them. -/
theorem saveChapter_archive_phase_witness :
    zipConfig.AsZip = true ∧
    (savePagesOf okEnv zipConfig soloPage chapterOne emptyWorld).1 = none ∧
    ((saveChapter okEnv zipConfig soloPage chapterOne emptyWorld).1 = none ∧
     (saveChapter okEnv zipConfig soloPage chapterOne emptyWorld).2.dirs
       (getDownloadFolder okEnv.upper zipConfig soloPage chapterOne) = none) ∧
    (savePagesOf openFailEnv zipConfig soloPage chapterOne emptyWorld).1 = none ∧
    ((saveChapter openFailEnv zipConfig soloPage chapterOne emptyWorld).1 =
       some ⟨"permission denied".toList⟩ ∧
     (saveChapter openFailEnv zipConfig soloPage chapterOne emptyWorld).2.dirs =
       (savePagesOf openFailEnv zipConfig soloPage chapterOne emptyWorld).2.dirs ∧
     ∀ path, Event.removeAll path ∉
       (saveChapter openFailEnv zipConfig soloPage chapterOne emptyWorld).2.log.drop
         emptyWorld.log.length) :=
  ⟨rfl, by decide,
    (saveChapter_archive_phase okEnv zipConfig soloPage chapterOne emptyWorld
      (savePagesOf okEnv zipConfig soloPage chapterOne emptyWorld).2 _ _ rfl rfl rfl
      (Prod.ext (by decide) rfl)).2.1 (by decide) rfl,
    by decide,
    (saveChapter_archive_phase openFailEnv zipConfig soloPage chapterOne emptyWorld
      (savePagesOf openFailEnv zipConfig soloPage chapterOne emptyWorld).2 _ _ rfl rfl rfl
      (Prod.ext (by decide) rfl)).1 ⟨"permission denied".toList⟩ (by decide)⟩

/-- Witness for C9: a source directory with two files and a sub-directory holding a third. -/
theorem saveAsZipFolder_entries_witness :
    filesUnder.listed
        [("a.png".toList, .file [1, 2]), ("sub".toList, .dir [("b.png".toList, .file [3])]),
         ("z.jpg".toList, .file [])] =
      [("a.png".toList, [1, 2]), ("b.png".toList, [3]), ("z.jpg".toList, [])] ∧
    (saveAsZipFolder okEnv zipConfig "src".toList treeWorld).1 = none ∧
    ∃ a : Archive,
      (saveAsZipFolder okEnv zipConfig "src".toList treeWorld).2.archives
        ("src".toList ++ '.' :: zipConfig.ZipType) = some a ∧
      a.entries.length =
        (filesUnder.listed
          [("a.png".toList, .file [1, 2]), ("sub".toList, .dir [("b.png".toList, .file [3])]),
           ("z.jpg".toList, .file [])]).length ∧
      a.entries.map (fun e => (e.header.Name, e.header.Method, e.data)) =
        (filesUnder.listed
          [("a.png".toList, .file [1, 2]), ("sub".toList, .dir [("b.png".toList, .file [3])]),
           ("z.jpg".toList, .file [])]).map (fun f => (f.1, Deflate, f.2)) ∧
      ((saveAsZipFolder okEnv zipConfig "src".toList treeWorld).2.log.drop
        treeWorld.log.length).filterMap Event.headerName =
        (filesUnder.listed
          [("a.png".toList, .file [1, 2]), ("sub".toList, .dir [("b.png".toList, .file [3])]),
           ("z.jpg".toList, .file [])]).map Prod.fst :=
  ⟨by decide, by decide,
    (saveAsZipFolder_entries okEnv zipConfig "src".toList treeWorld _ rfl).2 (by decide)⟩

end Mangadesk
